import Mathlib

/-!
# Verification of the Metal-Metals data pipeline

Shallow embedding of the core of the Metal-Metals repository:
`app.js` (date window, range filter, normalizer, trace builder),
`scripts/backfill_5y.js` (chunked backfill, `mergeRows`) and
`scripts/update_daily.js` (rate validation, append-or-replace).

Dates at UTC midnight are modelled as day numbers (days since 1970-01-01,
an `Int`), matching the millisecond clock of a JS `Date` divided by
86400000.  Civil (year, month, day) conversions follow the standard
Gregorian-calendar algorithms, which agree with the ECMAScript
`MakeDay` / `YearFromTime` / `MonthFromTime` / `DateFromTime` operations.
JS numbers are modelled as exact rationals extended with `NaN`, `±Infinity`
and `null`/missing values where the scripts can observe them.
-/

namespace Metals

set_option maxHeartbeats 1000000

/-! ## Calendar arithmetic (model of the ECMAScript Date operations) -/

/-- Days since 1970-01-01 of the civil date `(y, m, d)` with month `1..12`.
Standard Gregorian day-number formula (Euclidean division, positive
divisors, so `/` and `%` floor). -/
def daysFromCivil (y m d : Int) : Int :=
  (if m ≤ 2 then y - 1 else y) / 400 * 146097
  + ((if m ≤ 2 then y - 1 else y) % 400) * 365
  + ((if m ≤ 2 then y - 1 else y) % 400) / 4
  - ((if m ≤ 2 then y - 1 else y) % 400) / 100
  + (153 * ((m + 9) % 12) + 2) / 5 + d - 1 - 719468

/-- Civil date `(y, m, d)` (month `1..12`) of a day number. -/
def civilFromDays (z0 : Int) : Int × Int × Int :=
  let z : Int := z0 + 719468
  let era : Int := z / 146097
  let doe : Int := z % 146097
  let yoe : Int := (doe - doe / 1460 + doe / 36524 - doe / 146096) / 365
  let y : Int := yoe + era * 400
  let doy : Int := doe - (365 * yoe + yoe / 4 - yoe / 100)
  let mp : Int := (5 * doy + 2) / 153
  let d : Int := doy - (153 * mp + 2) / 5 + 1
  let m : Int := if mp < 10 then mp + 3 else mp - 9
  (if m ≤ 2 then y + 1 else y, m, d)

/-- Length of month `m` of year `y` in the proleptic Gregorian calendar. -/
def daysInMonth (y m : Int) : Int :=
  if m = 2 then (if y % 4 = 0 ∧ ¬(y % 100 = 0 ∧ ¬ y % 400 = 0) then 29 else 28)
  else if m = 4 ∨ m = 6 ∨ m = 9 ∨ m = 11 then 30 else 31

/-- `(y, m, d)` is a real calendar date. -/
def ValidDate (y m d : Int) : Prop :=
  1 ≤ m ∧ m ≤ 12 ∧ 1 ≤ d ∧ d ≤ daysInMonth y m

instance (y m d : Int) : Decidable (ValidDate y m d) := by
  unfold ValidDate; infer_instance

/-- Year projection of `civilFromDays`. -/
def civilY (z : Int) : Int := (civilFromDays z).1

/-- Month projection of `civilFromDays`. -/
def civilM (z : Int) : Int := (civilFromDays z).2.1

/-- Day-of-month projection of `civilFromDays`. -/
def civilD (z : Int) : Int := (civilFromDays z).2.2

/-- Core step of the year-of-era recovery: the year of era `100·cc+4·u+v`
is recovered from its day-of-era by the closed formula. -/
theorem yoe_core (cc u v doy X : Int)
    (hcc1 : 0 ≤ cc) (hcc2 : cc ≤ 3) (hu1 : 0 ≤ u) (hu2 : u ≤ 24)
    (hv1 : 0 ≤ v) (hv2 : v ≤ 3) (hr : 4 * u + v ≤ 99) (hdoy : 0 ≤ doy)
    (hX : X = 36524 * cc + 1461 * u + 365 * v + doy)
    (h4 : doy ≤ 364 ∨ (doy = 365 ∧ v = 3 ∧ (u ≠ 24 ∨ cc = 3))) :
    (X - X / 1460 + X / 36524 - X / 146096) / 365 = 100 * cc + 4 * u + v := by
  rcases h4 with h4 | ⟨hd, hv, hc⟩
  · have d96 : X / 146096 = 0 := by omega
    have d24 : X / 36524 = cc := by omega
    have d60 : X / 1460 = 25 * cc + u + (24 * cc + u + 365 * v + doy) / 1460 := by omega
    rw [d96, d24, d60]
    omega
  · subst hd hv
    rcases hc with hu | hcc
    · have d96 : X / 146096 = 0 := by omega
      have d24 : X / 36524 = cc := by omega
      have d60 : X / 1460 = 25 * cc + u + 1 := by omega
      rw [d96, d24, d60]
      omega
    · subst hcc
      have hu24 : u = 24 ∨ u ≤ 23 := by omega
      rcases hu24 with hu | hu
      · subst hu
        have hX2 : X = 146096 := by omega
        rw [hX2]
        decide
      · have d96 : X / 146096 = 0 := by omega
        have d24 : X / 36524 = 3 := by omega
        have d60 : X / 1460 = 75 + u + 1 := by omega
        rw [d96, d24, d60]
        omega

/-- Year-of-era recovery from a day-of-era built from year `yoe` and a
day-of-year `doy` (March-based), provided `doy = 365` only in long years. -/
theorem yoe_recover (yoe doy X : Int) (h1 : 0 ≤ yoe) (h2 : yoe ≤ 399)
    (h3 : 0 ≤ doy)
    (hX : X = 365 * yoe + yoe / 4 - yoe / 100 + doy)
    (h4 : doy ≤ 364 ∨
      (doy = 365 ∧ (yoe + 1) % 4 = 0 ∧ ((yoe + 1) % 100 ≠ 0 ∨ yoe = 399))) :
    (X - X / 1460 + X / 36524 - X / 146096) / 365 = yoe := by
  obtain ⟨cc, u, v, hcc1, hcc2, hu1, hu2, hv1, hv2, hr, hyoe⟩ :
      ∃ cc u v : Int, 0 ≤ cc ∧ cc ≤ 3 ∧ 0 ≤ u ∧ u ≤ 24 ∧ 0 ≤ v ∧ v ≤ 3 ∧
        4 * u + v ≤ 99 ∧ yoe = 100 * cc + 4 * u + v :=
    ⟨yoe / 100, yoe % 100 / 4, yoe % 100 % 4, by omega, by omega, by omega,
     by omega, by omega, by omega, by omega, by omega⟩
  subst hyoe
  have hX2 : X = 36524 * cc + 1461 * u + 365 * v + doy := by omega
  have h4a : doy ≤ 364 ∨ (doy = 365 ∧ v = 3 ∧ (u ≠ 24 ∨ cc = 3)) := by omega
  exact yoe_core cc u v doy X hcc1 hcc2 hu1 hu2 hv1 hv2 hr h3 hX2 h4a

/-- `civilFromDays` on `era·146097 + doe − 719468` extracts exactly this
era and day-of-era. -/
theorem civilFromDays_era (era doe : Int) (h1 : 0 ≤ doe) (h2 : doe ≤ 146096) :
    civilFromDays (era * 146097 + doe - 719468) =
      (let yoe := (doe - doe / 1460 + doe / 36524 - doe / 146096) / 365
       let doy := doe - (365 * yoe + yoe / 4 - yoe / 100)
       let mp := (5 * doy + 2) / 153
       let dd := doy - (153 * mp + 2) / 5 + 1
       let mm := if mp < 10 then mp + 3 else mp - 9
       (if mm ≤ 2 then yoe + era * 400 + 1 else yoe + era * 400, mm, dd)) := by
  have e1 : era * 146097 + doe - 719468 + 719468 = era * 146097 + doe := by ring
  have e2 : (era * 146097 + doe) / 146097 = era := by omega
  have e3 : (era * 146097 + doe) % 146097 = doe := by omega
  simp only [civilFromDays, e1, e2, e3]

/-- Round trip: converting a valid civil date to its day number and back
recovers the date. -/
theorem civilFromDays_daysFromCivil (y m d : Int) (h : ValidDate y m d) :
    civilFromDays (daysFromCivil y m d) = (y, m, d) := by
  obtain ⟨hm1, hm2, hd1, hd2⟩ := h
  obtain ⟨era, yoe, hy1, hy2, hy⟩ :
      ∃ era yoe : Int, 0 ≤ yoe ∧ yoe ≤ 399 ∧
        (if m ≤ 2 then y - 1 else y) = 400 * era + yoe :=
    ⟨(if m ≤ 2 then y - 1 else y) / 400, (if m ≤ 2 then y - 1 else y) % 400,
     by omega, by omega, by omega⟩
  have harg : daysFromCivil y m d =
      era * 146097 +
        (365 * yoe + yoe / 4 - yoe / 100 + ((153 * ((m + 9) % 12) + 2) / 5 + d - 1))
        - 719468 := by
    unfold daysFromCivil
    rw [hy]
    have q1 : (400 * era + yoe) / 400 = era := by omega
    have q2 : (400 * era + yoe) % 400 = yoe := by omega
    rw [q1, q2]
    ring
  set mp : Int := (m + 9) % 12 with hmp
  set doy : Int := (153 * mp + 2) / 5 + d - 1 with hdoy
  have hmp1 : 0 ≤ mp := by omega
  have hmp2 : mp ≤ 11 := by omega
  have hdoy0 : 0 ≤ doy := by omega
  -- the day-of-year stays inside the March-based year, with 365 only in
  -- long years; this uses the month-length bound on `d`
  have hdoyhi : doy ≤ 364 ∨
      (doy = 365 ∧ (yoe + 1) % 4 = 0 ∧ ((yoe + 1) % 100 ≠ 0 ∨ yoe = 399)) := by
    simp only [daysInMonth] at hd2
    split_ifs at hd2 with hf hleap hm30
    · -- February, leap year
      have hmle : m ≤ 2 := by omega
      rw [if_pos hmle] at hy
      omega
    · -- February, common year
      left
      omega
    · -- 30-day month
      left
      omega
    · -- 31-day month
      left
      omega
  have hdlen : d ≤ (153 * (mp + 1) + 2) / 5 - (153 * mp + 2) / 5 := by
    clear harg hdoyhi hy hy1 hy2 hdoy
    simp only [daysInMonth] at hd2
    interval_cases m <;> split_ifs at hd2 <;> omega
  have hdoy365 : doy ≤ 365 := by
    rcases hdoyhi with h | h
    · omega
    · omega
  have hdoe1 : 0 ≤ 365 * yoe + yoe / 4 - yoe / 100 + doy := by
    clear hdoyhi harg hdoy hd2
    omega
  have hdoe2 : 365 * yoe + yoe / 4 - yoe / 100 + doy ≤ 146096 := by
    clear hdoyhi harg hdoy hd2
    omega
  rw [harg, civilFromDays_era era _ hdoe1 hdoe2]
  have hrec :
      ((365 * yoe + yoe / 4 - yoe / 100 + doy)
        - (365 * yoe + yoe / 4 - yoe / 100 + doy) / 1460
        + (365 * yoe + yoe / 4 - yoe / 100 + doy) / 36524
        - (365 * yoe + yoe / 4 - yoe / 100 + doy) / 146096) / 365 = yoe :=
    yoe_recover yoe doy _ hy1 hy2 hdoy0 rfl hdoyhi
  simp only [hrec]
  have hdoyrec : 365 * yoe + yoe / 4 - yoe / 100 + doy
      - (365 * yoe + yoe / 4 - yoe / 100) = doy := by ring
  rw [hdoyrec]
  have hmprec : (5 * doy + 2) / 153 = mp := by
    clear hd2 harg hdoyhi hdoe1 hdoe2 hrec
    omega
  rw [hmprec]
  have hdrec : doy - (153 * mp + 2) / 5 + 1 = d := by omega
  rw [hdrec]
  have hmrec : (if mp < 10 then mp + 3 else mp - 9) = m := by omega
  rw [hmrec]
  have hyform : (if m ≤ 2 then yoe + era * 400 + 1 else yoe + era * 400) = y := by
    split_ifs at hy ⊢ <;> omega
  rw [hyform]

/-- Day number of the first day of linear month `t` (year `t / 12`,
zero-based month `t % 12`). -/
def dayOfFirst (t : Int) : Int := daysFromCivil (t / 12) (t % 12 + 1) 1

/-- The first day of the next month is strictly later. -/
theorem dayOfFirst_succ_gt (t : Int) : dayOfFirst t < dayOfFirst (t + 1) := by
  simp only [dayOfFirst, daysFromCivil]
  split_ifs <;> omega

/-- `dayOfFirst` is monotone. -/
theorem dayOfFirst_mono {s t : Int} (h : s ≤ t) : dayOfFirst s ≤ dayOfFirst t := by
  obtain ⟨k, hk⟩ : ∃ k : Nat, t = s + k := ⟨(t - s).toNat, by omega⟩
  subst hk
  clear h
  induction k with
  | zero => simp
  | succ n ih =>
      have h2 := dayOfFirst_succ_gt (s + n)
      have h3 : s + ((n + 1 : Nat) : Int) = (s + (n : Int)) + 1 := by
        push_cast
        ring
      rw [h3]
      omega

/-- ECMAScript `MakeDay`: day number of year `y`, zero-based month index
`mIdx` (any integer, overflowing into years) and day-of-month `day`
(any integer, overflowing into adjacent months). -/
def jsMakeDay (y mIdx day : Int) : Int := dayOfFirst (12 * y + mIdx) + (day - 1)

/-- ECMAScript `Date.UTC(y, mIdx, day)` (time of day zero), as a day
number: like `MakeDay` but years `0..99` are interpreted as `1900+y`. -/
def jsDateUTC (y mIdx day : Int) : Int :=
  jsMakeDay (if 0 ≤ y ∧ y ≤ 99 then y + 1900 else y) mIdx day

/-- On a valid civil date, `MakeDay` agrees with the day-number formula. -/
theorem jsMakeDay_eq_daysFromCivil (y m d : Int) (hm1 : 1 ≤ m) (hm2 : m ≤ 12) :
    jsMakeDay y (m - 1) d = daysFromCivil y m d := by
  unfold jsMakeDay dayOfFirst
  have q1 : (12 * y + (m - 1)) / 12 = y := by omega
  have q2 : (12 * y + (m - 1)) % 12 + 1 = m := by omega
  rw [q1, q2]
  unfold daysFromCivil
  split_ifs <;> omega

/-! ## JS numbers and values

A JS number is modelled as an exact rational extended with `NaN` and
`±Infinity` (float rounding is abstracted away: the scripts only compare,
divide and rescale, and the claims under study concern control flow and
exact example values).  A JSON value observable in a `rates` object is a
number or `null`; a missing key is `Option.none` at the lookup level
(JS `undefined`). -/

/-- A JS number: finite (exact rational), `NaN`, `Infinity` or `-Infinity`. -/
inductive JNum where
  | num (q : ℚ)
  | nan
  | inf
  | neginf
  deriving DecidableEq

/-- A JSON value in a `rates` object: a number or `null`. -/
inductive JVal where
  | jn (n : JNum)
  | null
  deriving DecidableEq

/-- `isFinite` on a JS number (the global `isFinite` and `Number.isFinite`
agree on numbers). -/
def jIsFinite : JNum → Bool
  | .num _ => true
  | _ => false

/-- IEEE-style division of JS numbers over exact rationals. -/
def jdiv : JNum → JNum → JNum
  | .nan, _ => .nan
  | _, .nan => .nan
  | .num p, .num q =>
      if q = 0 then (if p = 0 then .nan else if 0 < p then .inf else .neginf)
      else .num (p / q)
  | .num _, .inf => .num 0
  | .num _, .neginf => .num 0
  | .inf, .num q => if 0 ≤ q then .inf else .neginf
  | .neginf, .num q => if 0 ≤ q then .neginf else .inf
  | .inf, .inf => .nan
  | .inf, .neginf => .nan
  | .neginf, .inf => .nan
  | .neginf, .neginf => .nan

/-- IEEE-style multiplication of JS numbers over exact rationals. -/
def jmul : JNum → JNum → JNum
  | .nan, _ => .nan
  | _, .nan => .nan
  | .num p, .num q => .num (p * q)
  | .num p, .inf => if p = 0 then .nan else if 0 < p then .inf else .neginf
  | .num p, .neginf => if p = 0 then .nan else if 0 < p then .neginf else .inf
  | .inf, .num q => if q = 0 then .nan else if 0 < q then .inf else .neginf
  | .neginf, .num q => if q = 0 then .nan else if 0 < q then .neginf else .inf
  | .inf, .inf => .inf
  | .inf, .neginf => .neginf
  | .neginf, .inf => .neginf
  | .neginf, .neginf => .inf

/-- `Number(v)` on a rates value (`Number(null)` is `0`). -/
def jsToNumber : JVal → JNum
  | .jn n => n
  | .null => .num 0

/-- Rendering of a JS number by a template literal. -/
def jnumToString : JNum → String
  | .num q => toString q
  | .nan => "NaN"
  | .inf => "Infinity"
  | .neginf => "-Infinity"

/-- Rendering of an optional rates value by a template literal
(`undefined` for a missing key, `null` for JSON null). -/
def jvalToString : Option JVal → String
  | none => "undefined"
  | some .null => "null"
  | some (.jn n) => jnumToString n

/-- JS object property lookup: first binding wins, missing key is
`none` (`undefined`). -/
def jsGet (obj : List (String × JVal)) (k : String) : Option JVal :=
  (obj.find? (fun p => p.1 = k)).map Prod.snd

/-! ## app.js -/

/-- The configured symbol table of `app.js` (`METALS`): codes with
display names, in configured/display order. -/
def METALS : List (String × String) :=
  [("XCU", "Copper (XCU)"), ("XAU", "Gold (XAU)"), ("XAG", "Silver (XAG)"),
   ("ALU", "Aluminum (ALU)"), ("XPD", "Palladium (XPD)"), ("XPT", "Platinum (XPT)")]

/-- A row of the series store: an ISO date string with a partial
symbol-to-rate mapping. -/
structure Row where
  date : String
  rates : List (String × JVal)
  deriving DecidableEq

/-- JS `s.split(sep)` for a one-character separator, on the character
list of the string (`"".split("-")` is `[""]`, a trailing separator
produces a trailing empty part). -/
def jsSplitChar (sep : Char) : List Char → List (List Char)
  | [] => [[]]
  | c :: cs =>
      if c = sep then [] :: jsSplitChar sep cs
      else
        match jsSplitChar sep cs with
        | [] => [[c]]
        | h :: t => (c :: h) :: t

/-- Value of a list of decimal digit characters. -/
def digitsVal (l : List Char) : Nat :=
  l.foldl (fun acc c => 10 * acc + (c.toNat - 48)) 0

/-- JS `Number(str)` restricted to the fragment the pipeline feeds it:
the empty string is `0`, a non-empty all-digit string is its decimal
value, anything else is `NaN` (modelled as `none`).  Signs, decimals,
exponents and whitespace never occur in the split pieces of the date
strings under study. -/
def jsNumOfString (l : List Char) : Option Int :=
  if l = [] then some 0
  else if l.all (fun c => c.isDigit) then some (digitsVal l) else none

/-- `parseISODate` of `app.js`: split on `"-"`, convert the three pieces
with `Number`, build `Date.UTC(y, m-1, d)`.  `none` models an Invalid
Date (`NaN` clock value): every `<`/`>=` comparison against it is false. -/
def parseISODate (s : String) : Option Int :=
  let parts := jsSplitChar '-' s.data
  match parts with
  | p0 :: p1 :: p2 :: _ =>
      match jsNumOfString p0, jsNumOfString p1, jsNumOfString p2 with
      | some y, some m, some d => some (jsDateUTC y (m - 1) d)
      | _, _, _ => none
  | _ => none

/-- Decimal digits of a natural number, most significant first, with an
explicit fuel bounding the recursion depth (`n < fuel` suffices). -/
def natDigitsAux : Nat → Nat → List Char
  | 0, _ => []
  | fuel + 1, n =>
      if n < 10 then [Char.ofNat (48 + n)]
      else natDigitsAux fuel (n / 10) ++ [Char.ofNat (48 + n % 10)]

/-- Decimal digit characters of a natural number. -/
def natDigits (n : Nat) : List Char := natDigitsAux (n + 1) n

/-- JS `ToString` of an integral number: decimal digits, a leading `-`
for negative values, no padding. -/
def intToString (i : Int) : String :=
  if i < 0 then "-" ++ String.mk (natDigits (-i).toNat)
  else String.mk (natDigits i.toNat)

/-- `String(n).padStart(2, "0")`. -/
def padTwo (n : Int) : String :=
  let s := intToString n
  if s.length < 2 then "0" ++ s else s

/-- `fmtDateUTC` of `app.js`: `${y}-${mm}-${dd}` with the month and day
zero-padded to two characters (the year is not padded). -/
def fmtDateUTC (z : Int) : String :=
  intToString (civilY z) ++ "-" ++ padTwo (civilM z) ++ "-" ++ padTwo (civilD z)

/-- `setUTCMonth` on a UTC-midnight date: `MakeDay` of the same year and
day-of-month with the new zero-based month (overflow normalized, no
two-digit-year remapping in setters). -/
def jsSetUTCMonth (z mIdx : Int) : Int := jsMakeDay (civilY z) mIdx (civilD z)

/-- `setUTCFullYear` on a UTC-midnight date. -/
def jsSetUTCFullYear (z y : Int) : Int := jsMakeDay y (civilM z - 1) (civilD z)

/-- `rangeStart` of `app.js`.  The current instant is presented by its
UTC calendar fields `(ny, nm, nd)` (what `getUTCFullYear` /
`getUTCMonth + 1` / `getUTCDate` return on `new Date()`); the result is
the day number of the returned `Date`. -/
def rangeStart (range : String) (ny nm nd : Int) : Int :=
  let utcNow := jsDateUTC ny (nm - 1) nd
  if range = "1d" then utcNow - 1
  else if range = "3d" then utcNow - 3
  else if range = "1w" then utcNow - 7
  else if range = "1m" then jsSetUTCMonth utcNow (civilM utcNow - 1 - 1)
  else if range = "3m" then jsSetUTCMonth utcNow (civilM utcNow - 1 - 3)
  else if range = "6m" then jsSetUTCMonth utcNow (civilM utcNow - 1 - 6)
  else if range = "1y" then jsSetUTCFullYear utcNow (civilY utcNow - 1)
  else if range = "5y" then jsSetUTCFullYear utcNow (civilY utcNow - 5)
  else if range = "ytd" then jsDateUTC (civilY utcNow) 0 1
  else jsDateUTC (civilY utcNow - 5) (civilM utcNow - 1) (civilD utcNow)

/-- `filterSeriesByRange` of `app.js`: keep the rows whose parsed date is
on/after the computed start (comparisons against an Invalid Date are
false). -/
def filterSeriesByRange (series : List Row) (range : String) (ny nm nd : Int) :
    List Row :=
  let start := rangeStart range ny nm nd
  series.filter (fun row =>
    match parseISODate row.date with
    | some t => start ≤ t
    | none => false)

/-- `normalize` of `app.js`: empty stays empty; a non-finite or zero
first element returns the sequence unchanged; otherwise rescale so the
first element maps to 100. -/
def normalize : List JNum → List JNum
  | [] => []
  | base :: tail =>
      if ¬ jIsFinite base ∨ base = .num 0 then base :: tail
      else (base :: tail).map (fun v => jmul (jdiv v base) (.num 100))

/-- A chart trace (the chart-sink fields `type`/`mode`/`hovertemplate`
are constants and omitted). -/
structure Trace where
  name : String
  x : List String
  y : List JNum
  deriving DecidableEq

/-- The per-symbol (date, value) pairs collected by the inner loop of
`buildTraces`: rows whose value for the symbol is `undefined` or `null`
are skipped, others contribute `(row.date, Number(v))`. -/
def tracePairs (rows : List Row) (code : String) : List (String × JNum) :=
  rows.filterMap (fun row =>
    match jsGet row.rates code with
    | none => none
    | some .null => none
    | some (.jn n) => some (row.date, n))

/-- The display name of a symbol:
`METALS.find(m => m.code === code)?.name || code`. -/
def displayName (code : String) : String :=
  match METALS.find? (fun p => p.1 = code) with
  | some p => if p.2 = "" then code else p.2
  | none => code

/-- The trace `buildTraces` constructs for a single selected symbol. -/
def traceFor (filtered : List Row) (doNorm : Bool) (code : String) : Trace :=
  let pairs := tracePairs filtered code
  let y := pairs.map Prod.snd
  { name := displayName code
    x := pairs.map Prod.fst
    y := if doNorm then normalize y else y }

/-- `buildTraces` of `app.js`: one trace per selected symbol.  The
selection is `Array.from(state.selected)`: the JS `Set` iterates in
insertion order, so the selection is presented as the insertion-ordered
list of selected codes. -/
def buildTraces (selected : List String) (series : List Row) (range : String)
    (doNorm : Bool) (ny nm nd : Int) : List Trace :=
  let filtered := filterSeriesByRange series range ny nm nd
  selected.map (traceFor filtered doNorm)

/-! ## scripts/backfill_5y.js -/

/-- `addDays` of `backfill_5y.js`: `setUTCDate(getUTCDate() + days)` is
`MakeDay` of the same year and month with the shifted day-of-month, and
the day-of-month enters `MakeDay` linearly, so on the day-number timeline
this is plain addition. -/
def addDays (z days : Int) : Int := z + days

/-- Body of the `while (cur <= endUTC)` loop of `chunkRanges`, with an
explicit fuel argument bounding the number of iterations (the JS loop
advances `cur` by at least one day per iteration whenever
`chunkDays ≥ 1`, so `(endD - cur) + 1` iterations suffice; on smaller
fuel the model truncates where the JS loop would still run). -/
def chunkGo : Nat → Int → Int → Int → List (Int × Int)
  | 0, _, _, _ => []
  | fuel + 1, cur, endD, chunkDays =>
      if cur ≤ endD then
        let chunkEnd := addDays cur (chunkDays - 1)
        let realEnd := if chunkEnd ≤ endD then chunkEnd else endD
        (cur, realEnd) :: chunkGo fuel (addDays realEnd 1) endD chunkDays
      else []

/-- `chunkRanges` of `backfill_5y.js` on day numbers. -/
def chunkRanges (startD endD chunkDays : Int) : List (Int × Int) :=
  chunkGo ((endD - startD).toNat + 1) startD endD chunkDays

/-- One `Map.set` step on an insertion-ordered association list: an
existing key keeps its position and gets the new value, a new key is
appended. -/
def mapSet : List Row → Row → List Row
  | [], r => [r]
  | x :: xs, r => if x.date = r.date then r :: xs else x :: mapSet xs r

/-- `rows.sort((a, b) => a.date.localeCompare(b.date))`, with
`localeCompare` modelled as code-unit comparison (it agrees with it on
ASCII ISO date strings).  JS `Array.prototype.sort` is stable; so is
`mergeSort`. -/
def sortRows (l : List Row) : List Row :=
  l.mergeSort (fun a b => a.date ≤ b.date)

/-- `mergeRows` of `backfill_5y.js`: seed a date-keyed `Map` from
`existingRows` (later duplicates overwrite earlier ones), overwrite with
each of `newRows`, then sort the values by date. -/
def mergeRows (existingRows newRows : List Row) : List Row :=
  sortRows (List.foldl mapSet (List.foldl mapSet [] existingRows) newRows)

/-! ## scripts/update_daily.js -/

/-- The configured symbol codes of the update scripts (the default of
`METALPRICE_METALS`). -/
def DAILY_METALS : List String := ["XCU", "XAU", "XAG", "ALU", "XPD", "XPT"]

/-- A fetched rate is acceptable when it is a number, finite and
strictly positive (`typeof v === "number" && Number.isFinite(v) && v > 0`). -/
def goodRate : Option JVal → Bool
  | some (.jn (.num q)) => decide (0 < q)
  | _ => false

/-- The `Bad rate for ${k}: ${v}` message. -/
def badMsg (k : String) (v : Option JVal) : String :=
  "Bad rate for " ++ k ++ ": " ++ jvalToString v

/-- The loop of `validateRates` over a list of symbols: the first
violating symbol raises, naming the symbol and the value. -/
def validateRatesGo (rates : List (String × JVal)) :
    List String → Except String Unit
  | [] => .ok ()
  | k :: ks =>
      if goodRate (jsGet rates k) then validateRatesGo rates ks
      else .error (badMsg k (jsGet rates k))

/-- `validateRates` of `update_daily.js` over the configured symbols.
(A missing or undefined `rates` object makes every lookup `undefined`,
exactly like the empty object, so `rates` is passed as a plain list.) -/
def validateRates (rates : List (String × JVal)) : Except String Unit :=
  validateRatesGo rates DAILY_METALS

/-- `series.json` as a record. -/
structure Series where
  base : String
  metals : List String
  rows : List Row
  deriving DecidableEq

/-- `meta.json` as a record (the constant `source` field is omitted). -/
structure Meta where
  last_updated_utc : Option String
  base : Option String
  metals : List String
  deriving DecidableEq

/-- `appendOrReplaceRow` of `update_daily.js`: replace the first row
with the given date in place if one exists, else append, then sort by
date. -/
def appendOrReplaceRow (rows : List Row) (date : String)
    (rates : List (String × JVal)) : List Row :=
  let row : Row := ⟨date, rates⟩
  let rows2 :=
    match rows.findIdx? (fun r => r.date = date) with
    | some i => rows.set i row
    | none => rows ++ [row]
  sortRows rows2

/-- `main` of `update_daily.js` after the fetch resolved: validate the
fetched rates (a thrown validation error aborts before any write), then
replace/append today's row, update the series header and the meta
document.  `today` is the `todayUtcDateString()`, `nowTs` the
`nowUtcTimestamp()`, `jbase`/`jrates` the fields of the fetched JSON. -/
def updateDaily (series : Series) (meta : Meta) (today nowTs : String)
    (jbase : Option String) (jrates : List (String × JVal)) :
    Except String (Series × Meta) :=
  match validateRates jrates with
  | .error e => .error e
  | .ok _ =>
      let base := (jbase.getD "USD").toUpper
      .ok ({ base := base, metals := DAILY_METALS,
             rows := appendOrReplaceRow series.rows today jrates },
           { last_updated_utc := some nowTs, base := some base,
             metals := DAILY_METALS })

/-- The whole invocation including the `main().catch` handler: on a
validation error the process exits without writing, so the persisted
documents are unchanged. -/
def runDaily (series : Series) (meta : Meta) (today nowTs : String)
    (jbase : Option String) (jrates : List (String × JVal)) : Series × Meta :=
  match updateDaily series meta today nowTs jbase jrates with
  | .ok sm => sm
  | .error _ => (series, meta)

/-! ## Supporting lemmas -/

/-- The civil getters of the day number of a valid date recover the date. -/
theorem civil_getters (y m d : Int) (h : ValidDate y m d) :
    civilY (daysFromCivil y m d) = y ∧ civilM (daysFromCivil y m d) = m ∧
      civilD (daysFromCivil y m d) = d := by
  have hrt := civilFromDays_daysFromCivil y m d h
  unfold civilY civilM civilD
  rw [hrt]
  exact ⟨rfl, rfl, rfl⟩

/-- Outside the two-digit-year window, `Date.UTC` is plain `MakeDay`. -/
theorem jsDateUTC_eq_makeDay (y i d : Int) (h : ¬ (0 ≤ y ∧ y ≤ 99)) :
    jsDateUTC y i d = jsMakeDay y i d := by
  unfold jsDateUTC
  rw [if_neg h]

/-- `MakeDay` is monotone in the linear month and the day-of-month. -/
theorem jsMakeDay_mono {y1 i1 d1 y2 i2 d2 : Int}
    (ht : 12 * y1 + i1 ≤ 12 * y2 + i2) (hd : d1 ≤ d2) :
    jsMakeDay y1 i1 d1 ≤ jsMakeDay y2 i2 d2 := by
  unfold jsMakeDay
  have := dayOfFirst_mono ht
  omega

/-! ## C5: normalize -/

/-- C5.  `normalize` on the empty sequence returns the empty sequence; if
the first element is non-finite or equal to `0` it returns the original
sequence unmodified; otherwise it maps every element `v` to
`(v / first) * 100`; and the two concrete examples of the spec hold. -/
theorem C5_normalize_spec :
    normalize [] = []
    ∧ (∀ (v : JNum) (vs : List JNum), ¬ jIsFinite v ∨ v = .num 0 →
        normalize (v :: vs) = v :: vs)
    ∧ (∀ (v : JNum) (vs : List JNum), jIsFinite v → v ≠ .num 0 →
        normalize (v :: vs) =
          (v :: vs).map (fun x => jmul (jdiv x v) (.num 100)))
    ∧ normalize [.num 0, .num 5, .num 10] = [.num 0, .num 5, .num 10]
    ∧ normalize [.num 50, .num 100, .num 25] = [.num 100, .num 200, .num 50] := by
  refine ⟨rfl, ?_, ?_, by norm_num [normalize],
    by norm_num [normalize, jIsFinite, jdiv, jmul]⟩
  · intro v vs h
    simp only [normalize]
    rw [if_pos h]
  · intro v vs hfin hne
    simp only [normalize]
    rw [if_neg (by simp [hfin, hne])]

/-- Witness for C5: both guarded branches fire at concrete inputs. -/
theorem C5_normalize_spec_witness :
    normalize [JNum.nan, JNum.num 3] = [JNum.nan, JNum.num 3]
    ∧ normalize [JNum.num 50, JNum.num 100, JNum.num 25] =
        ([JNum.num 50, JNum.num 100, JNum.num 25]).map
          (fun x => jmul (jdiv x (JNum.num 50)) (JNum.num 100)) :=
  ⟨C5_normalize_spec.2.1 .nan [.num 3] (by decide),
   C5_normalize_spec.2.2.1 (.num 50) [.num 100, .num 25] (by decide) (by decide)⟩

/-! ## C2: rangeStart -/

/-- Month subtraction as the spec claims it: same day-of-month, clamped
to the length of the target month. -/
def monthSubClamped (ny nm nd k : Int) : Int :=
  let t := 12 * ny + (nm - 1) - k
  let y := t / 12
  let m := t % 12 + 1
  daysFromCivil y m (min nd (daysInMonth y m))

/-- The §4.1 table exactly as the claim words it (calendar-month
subtraction clamped to the target month's length, calendar-year
subtraction likewise); the comparison point for the refinement claim. -/
def rangeStartClaimed (range : String) (ny nm nd : Int) : Int :=
  let now := daysFromCivil ny nm nd
  if range = "1d" then now - 1
  else if range = "3d" then now - 3
  else if range = "1w" then now - 7
  else if range = "1m" then monthSubClamped ny nm nd 1
  else if range = "3m" then monthSubClamped ny nm nd 3
  else if range = "6m" then monthSubClamped ny nm nd 6
  else if range = "1y" then daysFromCivil (ny - 1) nm (min nd (daysInMonth (ny - 1) nm))
  else if range = "5y" then daysFromCivil (ny - 5) nm (min nd (daysInMonth (ny - 5) nm))
  else if range = "ytd" then daysFromCivil ny 1 1
  else daysFromCivil (ny - 5) nm (min nd (daysInMonth (ny - 5) nm))

/-- C2 counterexample.  At `now = 2024-03-31`, `rangeStart "1m"` returns
`2024-03-02` (the JS `setUTCMonth` rolls the day overflow into March),
not the clamped `2024-02-29` of the claimed table; and at a `now` in year
102 an unrecognized code returns a date far in the future of `now`
(`Date.UTC` maps the two-digit year `97` to `1997`), violating
`start ≤ now`. -/
theorem C2_rangeStart_counterexample :
    rangeStart "1m" 2024 3 31 ≠ rangeStartClaimed "1m" 2024 3 31
    ∧ rangeStart "1m" 2024 3 31 = daysFromCivil 2024 3 2
    ∧ rangeStartClaimed "1m" 2024 3 31 = daysFromCivil 2024 2 29
    ∧ ¬ rangeStart "zz" 102 1 1 ≤ daysFromCivil 102 1 1 := by
  refine ⟨by decide, by decide, by decide, by decide⟩

/-- C2 as amended.  For every valid current date with year in
`[105, 275000]` (away from the two-digit-year remapping of `Date.UTC`
and inside the representable JS time range): every range code returns a
date `≤ now`; `1d`/`3d`/`1w` subtract 1/3/7 days; `1m`/`3m`/`6m`
subtract calendar months with the same day-of-month and the overflow
past the target month's end rolling into the following month (JS field
normalization, not clamping); `1y`/`5y` subtract calendar years with the
same normalization; `ytd` is January 1 of the current year; and every
unrecognized code falls back to `now − 5` calendar years. -/
theorem C2_rangeStart_amended (ny nm nd : Int) (hv : ValidDate ny nm nd)
    (hy1 : 105 ≤ ny) (hy2 : ny ≤ 275000) :
    (∀ range : String, rangeStart range ny nm nd ≤ daysFromCivil ny nm nd)
    ∧ rangeStart "1d" ny nm nd = daysFromCivil ny nm nd - 1
    ∧ rangeStart "3d" ny nm nd = daysFromCivil ny nm nd - 3
    ∧ rangeStart "1w" ny nm nd = daysFromCivil ny nm nd - 7
    ∧ rangeStart "1m" ny nm nd = jsMakeDay ny (nm - 1 - 1) nd
    ∧ rangeStart "3m" ny nm nd = jsMakeDay ny (nm - 1 - 3) nd
    ∧ rangeStart "6m" ny nm nd = jsMakeDay ny (nm - 1 - 6) nd
    ∧ rangeStart "1y" ny nm nd = jsMakeDay (ny - 1) (nm - 1) nd
    ∧ rangeStart "5y" ny nm nd = jsMakeDay (ny - 5) (nm - 1) nd
    ∧ rangeStart "ytd" ny nm nd = daysFromCivil ny 1 1
    ∧ (∀ range : String,
        range ∉ (["1d", "3d", "1w", "1m", "3m", "6m", "1y", "5y", "ytd"] : List String) →
        rangeStart range ny nm nd = jsMakeDay (ny - 5) (nm - 1) nd) := by
  obtain ⟨hgY, hgM, hgD⟩ := civil_getters ny nm nd hv
  obtain ⟨hm1, hm2, hd1, hd2⟩ := hv
  have hnow : jsDateUTC ny (nm - 1) nd = daysFromCivil ny nm nd := by
    rw [jsDateUTC_eq_makeDay ny (nm - 1) nd (by omega)]
    exact jsMakeDay_eq_daysFromCivil ny nm nd hm1 hm2
  have hnowEq : daysFromCivil ny nm nd = jsMakeDay ny (nm - 1) nd :=
    (jsMakeDay_eq_daysFromCivil ny nm nd hm1 hm2).symm
  have hytd : jsDateUTC ny 0 1 = daysFromCivil ny 1 1 := by
    rw [jsDateUTC_eq_makeDay ny 0 1 (by omega)]
    have := jsMakeDay_eq_daysFromCivil ny 1 1 (by omega) (by omega)
    simpa using this
  have hfb : jsDateUTC (ny - 5) (nm - 1) nd = jsMakeDay (ny - 5) (nm - 1) nd :=
    jsDateUTC_eq_makeDay (ny - 5) (nm - 1) nd (by omega)
  have hbranch : ∀ range : String, rangeStart range ny nm nd =
      (if range = "1d" then daysFromCivil ny nm nd - 1
       else if range = "3d" then daysFromCivil ny nm nd - 3
       else if range = "1w" then daysFromCivil ny nm nd - 7
       else if range = "1m" then jsMakeDay ny (nm - 1 - 1) nd
       else if range = "3m" then jsMakeDay ny (nm - 1 - 3) nd
       else if range = "6m" then jsMakeDay ny (nm - 1 - 6) nd
       else if range = "1y" then jsMakeDay (ny - 1) (nm - 1) nd
       else if range = "5y" then jsMakeDay (ny - 5) (nm - 1) nd
       else if range = "ytd" then daysFromCivil ny 1 1
       else jsMakeDay (ny - 5) (nm - 1) nd) := by
    intro range
    simp only [rangeStart, jsSetUTCMonth, jsSetUTCFullYear]
    rw [hnow, hgY, hgM, hgD, hytd, hfb]
  have hle : ∀ range : String, rangeStart range ny nm nd ≤ daysFromCivil ny nm nd := by
    intro range
    rw [hbranch range]
    split_ifs
    · omega
    · omega
    · omega
    · rw [hnowEq]; exact jsMakeDay_mono (by omega) le_rfl
    · rw [hnowEq]; exact jsMakeDay_mono (by omega) le_rfl
    · rw [hnowEq]; exact jsMakeDay_mono (by omega) le_rfl
    · rw [hnowEq]; exact jsMakeDay_mono (by omega) le_rfl
    · rw [hnowEq]; exact jsMakeDay_mono (by omega) le_rfl
    · rw [hnowEq]
      have h11 : daysFromCivil ny 1 1 = jsMakeDay ny 0 1 := by
        have := jsMakeDay_eq_daysFromCivil ny 1 1 (by omega) (by omega)
        simpa using this.symm
      rw [h11]
      exact jsMakeDay_mono (by omega) (by omega)
    · rw [hnowEq]; exact jsMakeDay_mono (by omega) le_rfl
  refine ⟨hle, ?_, ?_, ?_, ?_, ?_, ?_, ?_, ?_, ?_, ?_⟩
  · rw [hbranch]; rfl
  · rw [hbranch]; rfl
  · rw [hbranch]; rfl
  · rw [hbranch]; rfl
  · rw [hbranch]; rfl
  · rw [hbranch]; rfl
  · rw [hbranch]; rfl
  · rw [hbranch]; rfl
  · rw [hbranch]; rfl
  · intro range hr
    rw [hbranch]
    simp only [List.mem_cons, List.mem_singleton] at hr
    push_neg at hr
    obtain ⟨n1, n3, n7, nm1, nm3, nm6, ny1, ny5, nytd, -⟩ := hr
    rw [if_neg n1, if_neg n3, if_neg n7, if_neg nm1, if_neg nm3, if_neg nm6,
      if_neg ny1, if_neg ny5, if_neg nytd]

/-- Witness for C2 (amended): at `now = 2025-10-11` the `1m` start is
September 11, 2025 and every code starts on or before `now`. -/
theorem C2_rangeStart_amended_witness :
    rangeStart "1m" 2025 10 11 = jsMakeDay 2025 (10 - 1 - 1) 11
    ∧ rangeStart "zz" 2025 10 11 ≤ daysFromCivil 2025 10 11 :=
  ⟨(C2_rangeStart_amended 2025 10 11 (by decide) (by omega) (by omega)).2.2.2.2.1,
   (C2_rangeStart_amended 2025 10 11 (by decide) (by omega) (by omega)).1 "zz"⟩

/-! ## C6: chunkRanges -/

/-- Invariants of the chunking loop, by induction on the fuel: the chunk
list starts at `cur`, ends at `endD`, has well-formed chunks of span at
most `c`, adjacent boundaries, strictly increasing disjoint chunks, all
inside `[cur, endD]`, and covers exactly `[cur, endD]`. -/
theorem chunkGo_spec : ∀ (fuel : Nat) (cur endD c : Int), 1 ≤ c → cur ≤ endD →
    (endD - cur).toNat < fuel →
    (chunkGo fuel cur endD c).head?.map Prod.fst = some cur
    ∧ (chunkGo fuel cur endD c).getLast?.map Prod.snd = some endD
    ∧ (∀ p ∈ chunkGo fuel cur endD c, p.1 ≤ p.2 ∧ p.2 - p.1 + 1 ≤ c)
    ∧ (chunkGo fuel cur endD c).Chain' (fun p q => q.1 = p.2 + 1)
    ∧ (chunkGo fuel cur endD c).Pairwise (fun p q => p.2 < q.1)
    ∧ (∀ p ∈ chunkGo fuel cur endD c, cur ≤ p.1 ∧ p.2 ≤ endD)
    ∧ (∀ d : Int, (cur ≤ d ∧ d ≤ endD) ↔
        ∃ p ∈ chunkGo fuel cur endD c, p.1 ≤ d ∧ d ≤ p.2) := by
  intro fuel
  induction fuel with
  | zero =>
      intro cur endD c hc hce hf
      exact absurd hf (by omega)
  | succ n ih =>
      intro cur endD c hc hce hf
      simp only [chunkGo, addDays, if_pos hce]
      by_cases hlt : cur + (c - 1) < endD
      · have hre : (if cur + (c - 1) ≤ endD then cur + (c - 1) else endD)
            = cur + (c - 1) := if_pos (by omega)
        rw [hre]
        have hcur' : cur + (c - 1) + 1 ≤ endD := by omega
        have hf' : (endD - (cur + (c - 1) + 1)).toNat < n := by omega
        obtain ⟨ihh, ihl, ihsp, ihch, ihpw, ihin, ihcov⟩ :=
          ih (cur + (c - 1) + 1) endD c hc hcur' hf'
        cases htl : chunkGo n (cur + (c - 1) + 1) endD c with
        | nil => rw [htl] at ihh; exact absurd ihh (by simp)
        | cons q t =>
            rw [htl] at ihh ihl ihsp ihch ihpw ihin ihcov
            have hq1 : q.1 = cur + (c - 1) + 1 := by
              simp only [List.head?_cons, Option.map_some] at ihh
              exact Option.some.inj ihh
            refine ⟨by simp, ?_, ?_, ?_, ?_, ?_, ?_⟩
            · rw [List.getLast?_cons_cons]
              exact ihl
            · intro p hp
              rcases List.mem_cons.mp hp with hp | hp
              · subst hp
                exact ⟨by omega, by omega⟩
              · exact ihsp p hp
            · rw [List.chain'_cons]
              exact ⟨by omega, ihch⟩
            · refine List.Pairwise.cons ?_ ihpw
              intro p hp
              have := (ihin p hp).1
              omega
            · intro p hp
              rcases List.mem_cons.mp hp with hp | hp
              · subst hp
                exact ⟨le_refl _, by omega⟩
              · have := ihin p hp
                exact ⟨by omega, this.2⟩
            · intro d
              constructor
              · intro hd
                by_cases hfirst : d ≤ cur + (c - 1)
                · exact ⟨(cur, cur + (c - 1)), List.mem_cons_self _ _,
                    by simpa using hd.1, by simpa using hfirst⟩
                · obtain ⟨p, hp, hpd⟩ := (ihcov d).mp ⟨by omega, hd.2⟩
                  exact ⟨p, List.mem_cons_of_mem _ hp, hpd⟩
              · rintro ⟨p, hp, hpd⟩
                rcases List.mem_cons.mp hp with hp | hp
                · subst hp
                  simp only at hpd
                  omega
                · have := ihin p hp
                  omega
      · have hre : (if cur + (c - 1) ≤ endD then cur + (c - 1) else endD)
            = endD := by split_ifs <;> omega
        rw [hre]
        have htail : chunkGo n (endD + 1) endD c = [] := by
          cases n with
          | zero => rfl
          | succ m =>
              simp only [chunkGo, addDays]
              rw [if_neg (by omega)]
        rw [htail]
        refine ⟨by simp, by simp, ?_, ?_, ?_, ?_, ?_⟩
        · intro p hp
          rcases List.mem_singleton.mp hp with rfl
          exact ⟨by omega, by omega⟩
        · simp
        · simp
        · intro p hp
          rcases List.mem_singleton.mp hp with rfl
          exact ⟨le_refl _, le_refl _⟩
        · intro d
          constructor
          · intro hd
            exact ⟨(cur, endD), List.mem_singleton_self _, hd.1, hd.2⟩
          · rintro ⟨p, hp, hpd⟩
            rcases List.mem_singleton.mp hp with rfl
            exact ⟨hpd.1, hpd.2⟩

/-- C6.  For every window `start ≤ end` and chunk size `C ≥ 1`,
`chunkRanges` partitions `[start, end]`: the first chunk starts at
`start`, the last ends at `end`, every chunk is well-formed and spans at
most `C` days inclusive, consecutive chunks are adjacent (next start =
previous end + 1), chunks are pairwise disjoint in increasing order, and
the chunks cover exactly the window. -/
theorem C6_chunkRanges_partition (s e c : Int) (hc : 1 ≤ c) (hse : s ≤ e) :
    (chunkRanges s e c).head?.map Prod.fst = some s
    ∧ (chunkRanges s e c).getLast?.map Prod.snd = some e
    ∧ (∀ p ∈ chunkRanges s e c, p.1 ≤ p.2 ∧ p.2 - p.1 + 1 ≤ c)
    ∧ (chunkRanges s e c).Chain' (fun p q => q.1 = p.2 + 1)
    ∧ (chunkRanges s e c).Pairwise (fun p q => p.2 < q.1)
    ∧ (∀ d : Int, (s ≤ d ∧ d ≤ e) ↔ ∃ p ∈ chunkRanges s e c, p.1 ≤ d ∧ d ≤ p.2) := by
  obtain ⟨h1, h2, h3, h4, h5, _, h7⟩ :=
    chunkGo_spec ((e - s).toNat + 1) s e c hc hse (by omega)
  exact ⟨h1, h2, h3, h4, h5, h7⟩

/-- Witness for C6 at the spec's example window 2021-01-01..2024-12-31
with `C = 365`. -/
theorem C6_chunkRanges_partition_witness :
    (chunkRanges (daysFromCivil 2021 1 1) (daysFromCivil 2024 12 31) 365).head?.map
        Prod.fst = some (daysFromCivil 2021 1 1)
    ∧ (chunkRanges (daysFromCivil 2021 1 1) (daysFromCivil 2024 12 31) 365).getLast?.map
        Prod.snd = some (daysFromCivil 2024 12 31) :=
  ⟨(C6_chunkRanges_partition (daysFromCivil 2021 1 1) (daysFromCivil 2024 12 31) 365
      (by omega) (by decide)).1,
   (C6_chunkRanges_partition (daysFromCivil 2021 1 1) (daysFromCivil 2024 12 31) 365
      (by omega) (by decide)).2.1⟩

/-! ## C4: daily validation aborts without writing -/

/-- The validation loop succeeds exactly when every listed symbol has an
acceptable rate. -/
theorem validateRatesGo_ok_iff (rates : List (String × JVal)) (ks : List String) :
    validateRatesGo rates ks = .ok () ↔ ∀ k ∈ ks, goodRate (jsGet rates k) := by
  induction ks with
  | nil => simp [validateRatesGo]
  | cons k ks ih =>
      simp only [validateRatesGo]
      by_cases h : goodRate (jsGet rates k)
      · rw [if_pos h]
        rw [ih]
        constructor
        · intro hall k2 hk2
          rcases List.mem_cons.mp hk2 with rfl | hk2
          · exact h
          · exact hall k2 hk2
        · intro hall k2 hk2
          exact hall k2 (List.mem_cons_of_mem _ hk2)
      · rw [if_neg h]
        constructor
        · intro he
          exact absurd he (by simp)
        · intro hall
          exact absurd (hall k (List.mem_cons_self _ _)) h

/-- A validation error names a violating symbol and its value. -/
theorem validateRatesGo_error (rates : List (String × JVal)) (ks : List String)
    (e : String) (he : validateRatesGo rates ks = .error e) :
    ∃ k ∈ ks, ¬ goodRate (jsGet rates k) ∧ e = badMsg k (jsGet rates k) := by
  induction ks with
  | nil => exact absurd he (by simp [validateRatesGo])
  | cons k ks ih =>
      simp only [validateRatesGo] at he
      by_cases h : goodRate (jsGet rates k)
      · rw [if_pos h] at he
        obtain ⟨k2, hk2, hbad, hmsg⟩ := ih he
        exact ⟨k2, List.mem_cons_of_mem _ hk2, hbad, hmsg⟩
      · rw [if_neg h] at he
        refine ⟨k, List.mem_cons_self _ _, h, ?_⟩
        exact (Except.error.inj he).symm

/-- C4.  The daily update fails if and only if some configured symbol's
fetched rate is missing, non-numeric, non-finite or not strictly
positive; on failure the error names an offending symbol and its value,
and the persisted series and meta documents are left unchanged (no row
is written). -/
theorem C4_daily_validation (series : Series) (meta : Meta) (today nowTs : String)
    (jbase : Option String) (jrates : List (String × JVal)) :
    ((∃ k ∈ DAILY_METALS, ¬ goodRate (jsGet jrates k)) ↔
      ∃ e, updateDaily series meta today nowTs jbase jrates = .error e)
    ∧ (∀ e, updateDaily series meta today nowTs jbase jrates = .error e →
        runDaily series meta today nowTs jbase jrates = (series, meta)
        ∧ ∃ k ∈ DAILY_METALS, ¬ goodRate (jsGet jrates k)
            ∧ e = badMsg k (jsGet jrates k)) := by
  cases hv : validateRates jrates with
  | ok u =>
      cases u
      have hall := (validateRatesGo_ok_iff jrates DAILY_METALS).mp hv
      constructor
      · constructor
        · rintro ⟨k, hk, hbad⟩
          exact absurd (hall k hk) hbad
        · rintro ⟨e, he⟩
          simp only [updateDaily, hv] at he
          exact Except.noConfusion he
      · intro e he
        simp only [updateDaily, hv] at he
        exact Except.noConfusion he
  | error e0 =>
      have hbad := validateRatesGo_error jrates DAILY_METALS e0 hv
      constructor
      · constructor
        · intro _
          exact ⟨e0, by simp [updateDaily, hv]⟩
        · rintro ⟨e, _⟩
          obtain ⟨k, hk, hb, _⟩ := hbad
          exact ⟨k, hk, hb⟩
      · intro e he
        simp only [updateDaily, hv] at he
        have hee : e0 = e := Except.error.inj he
        subst hee
        exact ⟨by simp [runDaily, updateDaily, hv], hbad⟩

/-- Witness for C4: an empty fetch (every symbol missing) aborts naming
`XCU`/`undefined`, and the store is untouched. -/
theorem C4_daily_validation_witness :
    runDaily ⟨"USD", [], []⟩ ⟨none, none, []⟩ "2025-01-01" "ts" none [] =
      (⟨"USD", [], []⟩, ⟨none, none, []⟩)
    ∧ ∃ k ∈ DAILY_METALS, ¬ goodRate (jsGet [] k)
        ∧ badMsg "XCU" none = badMsg k (jsGet ([] : List (String × JVal)) k) :=
  (C4_daily_validation ⟨"USD", [], []⟩ ⟨none, none, []⟩ "2025-01-01" "ts" none []).2
    (badMsg "XCU" none) rfl

/-! ## C8: trace iteration order -/

/-- C8 counterexample.  With selection insertion order `["XAU", "XCU"]`
(the state after toggling Copper off and back on), `buildTraces` emits
Gold before Copper — the `Set` insertion order — whereas the configured
`METALS` order lists Copper first. -/
theorem C8_order_counterexample :
    (buildTraces ["XAU", "XCU"] [] "5y" true 2025 1 1).map Trace.name ≠
      (METALS.filter (fun p => p.1 ∈ (["XAU", "XCU"] : List String))).map Prod.snd
    ∧ (buildTraces ["XAU", "XCU"] [] "5y" true 2025 1 1).map Trace.name =
        ["Gold (XAU)", "Copper (XCU)"]
    ∧ (METALS.filter (fun p => p.1 ∈ (["XAU", "XCU"] : List String))).map Prod.snd =
        ["Copper (XCU)", "Gold (XAU)"] := by
  refine ⟨by decide, by decide, by decide⟩

/-- C8 as amended.  `buildTraces` emits exactly one trace per selected
symbol, iterating the selection set in its insertion order
(`Array.from(state.selected)`), not in the configured `METALS` order;
the two orders agree for the initial all-selected state, whose insertion
order is the configured order. -/
theorem C8_order_amended (sel : List String) (series : List Row) (range : String)
    (doNorm : Bool) (ny nm nd : Int) :
    (buildTraces sel series range doNorm ny nm nd).map Trace.name =
      sel.map displayName
    ∧ (buildTraces (METALS.map Prod.fst) series range doNorm ny nm nd).map
        Trace.name = METALS.map Prod.snd := by
  have hgen : ∀ sel2 : List String,
      (buildTraces sel2 series range doNorm ny nm nd).map Trace.name =
        sel2.map displayName := by
    intro sel2
    simp only [buildTraces, List.map_map]
    rfl
  refine ⟨hgen sel, ?_⟩
  rw [hgen (METALS.map Prod.fst)]
  decide

/-! ## C9: sparse series tolerance -/

/-- A row has a usable value for a symbol when the lookup is neither
`undefined` nor `null`. -/
def hasRate (row : Row) (code : String) : Bool :=
  match jsGet row.rates code with
  | some (.jn _) => true
  | some .null => false
  | none => false

/-- `normalize` preserves the length of the sequence. -/
theorem normalize_length (l : List JNum) : (normalize l).length = l.length := by
  cases l with
  | nil => rfl
  | cons b t =>
      simp only [normalize]
      split_ifs <;> simp

/-- The collected pairs for a symbol are exactly the rows with a usable
value. -/
theorem tracePairs_length (rows : List Row) (code : String) :
    (tracePairs rows code).length = rows.countP (fun row => hasRate row code) := by
  induction rows with
  | nil => rfl
  | cons r rs ih =>
      simp only [tracePairs, List.filterMap_cons] at ih ⊢
      cases hg : jsGet r.rates code with
      | none => simpa [List.countP_cons, hasRate, hg] using ih
      | some v =>
          cases v with
          | null => simpa [List.countP_cons, hasRate, hg] using ih
          | jn n => simpa [List.countP_cons, hasRate, hg] using ih

/-- C9.  For every symbol the built trace has `x` and `y` of equal
length, equal to the number of range-filtered rows in which the symbol's
rate is present (not `undefined`, not `null`): rows missing the symbol
are skipped, never padded; and `buildTraces` builds exactly these traces
for the selected symbols. -/
theorem C9_sparse_traces (code : String) (series : List Row) (range : String)
    (doNorm : Bool) (ny nm nd : Int) :
    ((traceFor (filterSeriesByRange series range ny nm nd) doNorm code).x.length =
      (traceFor (filterSeriesByRange series range ny nm nd) doNorm code).y.length)
    ∧ ((traceFor (filterSeriesByRange series range ny nm nd) doNorm code).x.length =
        (filterSeriesByRange series range ny nm nd).countP
          (fun row => hasRate row code))
    ∧ (∀ sel : List String, buildTraces sel series range doNorm ny nm nd =
        sel.map (traceFor (filterSeriesByRange series range ny nm nd) doNorm)) := by
  refine ⟨?_, ?_, fun sel => rfl⟩
  · simp only [traceFor]
    cases doNorm with
    | true => simp [normalize_length]
    | false => simp
  · simp only [traceFor]
    simp [tracePairs_length]

/-! ## mergeRows machinery (C1, C3, C7) -/

/-- Lookup by date: the first row with the given date. -/
def dfind : List Row → String → Option Row
  | [], _ => none
  | r :: l, s => if r.date = s then some r else dfind l s

/-- The last row with the given date (what a date-keyed `Map` holds
after inserting the rows in order). -/
def dlast (l : List Row) (s : String) : Option Row := dfind l.reverse s

theorem dlast_nil (s : String) : dlast [] s = none := rfl

theorem dlast_concat (l : List Row) (r : Row) (s : String) :
    dlast (l ++ [r]) s = if r.date = s then some r else dlast l s := by
  unfold dlast
  rw [List.reverse_append]
  simp [dfind]

/-- `Map.set` semantics of `mapSet` on the date-keyed lookup. -/
theorem dfind_mapSet (m : List Row) (r : Row) (s : String) :
    dfind (mapSet m r) s = if r.date = s then some r else dfind m s := by
  induction m with
  | nil => simp [mapSet, dfind]
  | cons x xs ih =>
      simp only [mapSet]
      by_cases hx : x.date = r.date
      · rw [if_pos hx]
        by_cases h : r.date = s
        · rw [if_pos h]
          simp [dfind, h]
        · rw [if_neg h]
          have hxs : ¬ x.date = s := by rw [hx]; exact h
          simp [dfind, h, hxs]
      · rw [if_neg hx]
        by_cases hxsd : x.date = s
        · have hrs : ¬ r.date = s := by
            intro hrs
            exact hx (hxsd.trans hrs.symm)
          simp [dfind, hxsd, hrs]
        · simp only [dfind, if_neg hxsd]
          exact ih

/-- Keys of the map after a `set`. -/
theorem mapSet_dates_mem (m : List Row) (r : Row) (s : String) :
    s ∈ (mapSet m r).map Row.date ↔ s ∈ m.map Row.date ∨ s = r.date := by
  induction m with
  | nil => simp [mapSet]
  | cons x xs ih =>
      simp only [mapSet]
      by_cases hx : x.date = r.date
      · rw [if_pos hx]
        simp only [List.map_cons, List.mem_cons, hx]
        tauto
      · rw [if_neg hx]
        simp only [List.map_cons, List.mem_cons, ih]
        tauto

/-- `Map.set` preserves distinctness of the keys. -/
theorem mapSet_dates_nodup (m : List Row) (r : Row)
    (h : (m.map Row.date).Nodup) : ((mapSet m r).map Row.date).Nodup := by
  induction m with
  | nil => simp [mapSet]
  | cons x xs ih =>
      simp only [List.map_cons, List.nodup_cons] at h
      simp only [mapSet]
      by_cases hx : x.date = r.date
      · rw [if_pos hx]
        simp only [List.map_cons, List.nodup_cons]
        rw [← hx]
        exact h
      · rw [if_neg hx]
        simp only [List.map_cons, List.nodup_cons]
        refine ⟨?_, ih h.2⟩
        rw [mapSet_dates_mem]
        push_neg
        exact ⟨h.1, hx⟩

/-- Folding a batch of `Map.set` operations: the last occurrence of a
date in the batch wins, otherwise the original binding survives. -/
theorem dfind_foldl (I : List Row) : ∀ (m : List Row) (s : String),
    dfind (List.foldl mapSet m I) s =
      match dlast I s with
      | some r => some r
      | none => dfind m s := by
  induction I using List.reverseRecOn with
  | nil => intro m s; simp [dlast_nil]
  | append_singleton l r ih =>
      intro m s
      rw [List.foldl_append]
      simp only [List.foldl]
      rw [dfind_mapSet, dlast_concat]
      by_cases h : r.date = s
      · rw [if_pos h, if_pos h]
      · rw [if_neg h, if_neg h]
        exact ih m s

/-- Folding preserves distinctness of the keys. -/
theorem foldl_mapSet_nodup (I : List Row) : ∀ (m : List Row),
    (m.map Row.date).Nodup → ((List.foldl mapSet m I).map Row.date).Nodup := by
  induction I with
  | nil => intro m h; exact h
  | cons r I ih =>
      intro m h
      exact ih (mapSet m r) (mapSet_dates_nodup m r h)

/-- Setting an absent key appends. -/
theorem mapSet_of_not_mem (m : List Row) (r : Row)
    (h : r.date ∉ m.map Row.date) : mapSet m r = m ++ [r] := by
  induction m with
  | nil => rfl
  | cons x xs ih =>
      simp only [List.map_cons, List.mem_cons] at h
      push_neg at h
      simp only [mapSet]
      rw [if_neg (fun hx => h.1 hx.symm)]
      rw [ih h.2]
      rfl

/-- Seeding a `Map` from rows with pairwise-distinct dates reproduces
the rows (each insertion appends). -/
theorem foldl_mapSet_disjoint (l : List Row) : ∀ (acc : List Row),
    (∀ r ∈ l, r.date ∉ acc.map Row.date) → (l.map Row.date).Nodup →
    List.foldl mapSet acc l = acc ++ l := by
  induction l with
  | nil => intro acc _ _; simp
  | cons r l ih =>
      intro acc hdisj hnd
      simp only [List.map_cons, List.nodup_cons] at hnd
      simp only [List.foldl]
      rw [mapSet_of_not_mem acc r (hdisj r (List.mem_cons_self _ _))]
      rw [ih (acc ++ [r]) ?_ hnd.2]
      · simp
      · intro x hx
        simp only [List.map_append, List.mem_append]
        push_neg
        refine ⟨hdisj x (List.mem_cons_of_mem _ hx), ?_⟩
        simp only [List.map_cons, List.map_nil, List.mem_singleton]
        intro hxr
        exact hnd.1 (hxr ▸ List.mem_map_of_mem Row.date hx)

/-- Seeding a `Map` from a list with distinct dates is the identity. -/
theorem foldl_mapSet_nil (l : List Row) (h : (l.map Row.date).Nodup) :
    List.foldl mapSet [] l = l := by
  have := foldl_mapSet_disjoint l [] (by simp) h
  simpa using this

/-- With distinct dates, `dfind` characterizes membership. -/
theorem dfind_eq_some_iff (l : List Row) (s : String) (r : Row)
    (h : (l.map Row.date).Nodup) : dfind l s = some r ↔ r ∈ l ∧ r.date = s := by
  induction l with
  | nil => simp [dfind]
  | cons x xs ih =>
      simp only [List.map_cons, List.nodup_cons] at h
      simp only [dfind]
      by_cases hx : x.date = s
      · rw [if_pos hx]
        constructor
        · rintro hr
          have hxr : x = r := Option.some.inj hr
          subst hxr
          exact ⟨List.mem_cons_self _ _, hx⟩
        · rintro ⟨hmem, hdate⟩
          rcases List.mem_cons.mp hmem with rfl | hmem
          · rfl
          · exfalso
            apply h.1
            rw [hx, ← hdate]
            exact List.mem_map_of_mem Row.date hmem
      · rw [if_neg hx]
        rw [ih h.2]
        constructor
        · rintro ⟨hmem, hdate⟩
          exact ⟨List.mem_cons_of_mem _ hmem, hdate⟩
        · rintro ⟨hmem, hdate⟩
          rcases List.mem_cons.mp hmem with rfl | hmem
          · exact absurd hdate hx
          · exact ⟨hmem, hdate⟩

/-- With distinct dates, `dfind` is invariant under permutation. -/
theorem dfind_perm {l1 l2 : List Row} (hp : List.Perm l1 l2)
    (h1 : (l1.map Row.date).Nodup) (s : String) : dfind l1 s = dfind l2 s := by
  have h2 : (l2.map Row.date).Nodup := ((hp.map Row.date).nodup_iff).mp h1
  cases hq : dfind l2 s with
  | some r =>
      have := (dfind_eq_some_iff l2 s r h2).mp hq
      exact (dfind_eq_some_iff l1 s r h1).mpr ⟨hp.mem_iff.mpr this.1, this.2⟩
  | none =>
      cases hq1 : dfind l1 s with
      | none => rfl
      | some r =>
          have := (dfind_eq_some_iff l1 s r h1).mp hq1
          have := (dfind_eq_some_iff l2 s r h2).mpr ⟨hp.mem_iff.mp this.1, this.2⟩
          rw [this] at hq
          exact Option.noConfusion hq

/-- The sort step permutes the rows. -/
theorem sortRows_perm (l : List Row) : List.Perm (sortRows l) l :=
  List.mergeSort_perm l _

/-- The sort step sorts by date. -/
theorem sortRows_sorted (l : List Row) :
    (sortRows l).Pairwise (fun a b => a.date ≤ b.date) := by
  have h := @List.sorted_mergeSort Row
    (fun a b : Row => decide (a.date ≤ b.date))
    (fun a b c hab hbc => by
      simp only [decide_eq_true_eq] at *
      exact le_trans hab hbc)
    (fun a b => by
      simp only [Bool.or_eq_true, decide_eq_true_eq]
      exact le_total a.date b.date)
    l
  exact h.imp (fun hab => by simpa using hab)

/-- With distinct dates the sort is strictly increasing (hence at most
one row per date and a unique sorted order). -/
theorem sortRows_strict (l : List Row) (h : (l.map Row.date).Nodup) :
    (sortRows l).Pairwise (fun a b => a.date < b.date) := by
  have hs := sortRows_sorted l
  have hnd : ((sortRows l).map Row.date).Nodup :=
    (((sortRows_perm l).map Row.date).nodup_iff).mpr h
  have hne : (sortRows l).Pairwise (fun a b => a.date ≠ b.date) :=
    (List.pairwise_map).mp hnd
  exact (hs.and hne).imp (fun hab => lt_of_le_of_ne hab.1 hab.2)

/-- Two strictly date-sorted lists with the same date-keyed lookup are
equal. -/
theorem rows_ext {l1 l2 : List Row}
    (h1 : l1.Pairwise (fun a b => a.date < b.date))
    (h2 : l2.Pairwise (fun a b => a.date < b.date))
    (hf : ∀ s, dfind l1 s = dfind l2 s) : l1 = l2 := by
  have hnd1 : (l1.map Row.date).Nodup :=
    (List.pairwise_map).mpr (h1.imp (fun hab => ne_of_lt hab))
  have hnd2 : (l2.map Row.date).Nodup :=
    (List.pairwise_map).mpr (h2.imp (fun hab => ne_of_lt hab))
  have he1 : l1.Nodup := hnd1.of_map Row.date
  have he2 : l2.Nodup := hnd2.of_map Row.date
  have hmem : ∀ r, r ∈ l1 ↔ r ∈ l2 := by
    intro r
    constructor
    · intro hr
      have h := (dfind_eq_some_iff l1 r.date r hnd1).mpr ⟨hr, rfl⟩
      rw [hf r.date] at h
      exact ((dfind_eq_some_iff l2 r.date r hnd2).mp h).1
    · intro hr
      have h := (dfind_eq_some_iff l2 r.date r hnd2).mpr ⟨hr, rfl⟩
      rw [← hf r.date] at h
      exact ((dfind_eq_some_iff l1 r.date r hnd1).mp h).1
  have hperm : List.Perm l1 l2 := (List.perm_ext_iff_of_nodup he1 he2).mpr hmem
  haveI : IsAntisymm Row (fun a b => a.date < b.date) :=
    ⟨fun a b hab hba => absurd (lt_trans hab hba) (lt_irrefl _)⟩
  exact List.eq_of_perm_of_sorted hperm h1 h2

/-- The date-keyed lookup of `mergeRows E I`: the last `I`-row with the
date wins, else the last `E`-row. -/
theorem dfind_mergeRows (E I : List Row) (s : String) :
    dfind (mergeRows E I) s =
      match dlast I s with
      | some r => some r
      | none => dlast E s := by
  unfold mergeRows
  have hnd : ((List.foldl mapSet (List.foldl mapSet [] E) I).map Row.date).Nodup :=
    foldl_mapSet_nodup I _ (foldl_mapSet_nodup E [] (by simp))
  rw [dfind_perm (sortRows_perm _) (((sortRows_perm _).map Row.date).nodup_iff.mpr hnd) s]
  rw [dfind_foldl I _ s]
  cases dlast I s with
  | some r => rfl
  | none =>
      simp only
      rw [dfind_foldl E [] s]
      cases dlast E s with
      | some r => rfl
      | none => rfl

/-- Distinct dates in the merge result. -/
theorem mergeRows_dates_nodup (E I : List Row) :
    ((mergeRows E I).map Row.date).Nodup := by
  unfold mergeRows
  have hnd : ((List.foldl mapSet (List.foldl mapSet [] E) I).map Row.date).Nodup :=
    foldl_mapSet_nodup I _ (foldl_mapSet_nodup E [] (by simp))
  exact ((sortRows_perm _).map Row.date).nodup_iff.mpr hnd

/-- The merge result is strictly sorted by date. -/
theorem mergeRows_strict (E I : List Row) :
    (mergeRows E I).Pairwise (fun a b => a.date < b.date) := by
  unfold mergeRows
  exact sortRows_strict _ (foldl_mapSet_nodup I _ (foldl_mapSet_nodup E [] (by simp)))

/-- C1.  `mergeRows` is idempotent: re-applying the same incoming batch
to an already merged store changes nothing. -/
theorem C1_mergeRows_idempotent (E I : List Row) :
    mergeRows (mergeRows E I) I = mergeRows E I := by
  have hndR : ((mergeRows E I).map Row.date).Nodup := mergeRows_dates_nodup E I
  have hseed : List.foldl mapSet [] (mergeRows E I) = mergeRows E I :=
    foldl_mapSet_nil _ hndR
  have hndM2 : ((List.foldl mapSet (mergeRows E I) I).map Row.date).Nodup :=
    foldl_mapSet_nodup I _ hndR
  have hstrict2 : (sortRows (List.foldl mapSet (mergeRows E I) I)).Pairwise
      (fun a b => a.date < b.date) := sortRows_strict _ hndM2
  have hkey : ∀ s, dfind (sortRows (List.foldl mapSet (mergeRows E I) I)) s =
      dfind (mergeRows E I) s := by
    intro s
    rw [dfind_perm (sortRows_perm _)
      (((sortRows_perm _).map Row.date).nodup_iff.mpr hndM2) s]
    rw [dfind_foldl I _ s]
    rw [dfind_mergeRows E I s]
    cases dlast I s with
    | some r => rfl
    | none => rfl
  have : sortRows (List.foldl mapSet (mergeRows E I) I) = mergeRows E I :=
    rows_ext hstrict2 (mergeRows_strict E I) hkey
  show sortRows (List.foldl mapSet (List.foldl mapSet [] (mergeRows E I)) I) =
    mergeRows E I
  rw [hseed]
  exact this

/-- C3.  `mergeRows E I` is the date-keyed map seeded from `E` and then
overwritten by each row of `I`, sorted ascending by date: the result is
strictly sorted (hence at most one row per date), its lookup at every
date is the last `I`-row for that date, else the last `E`-row (an
incoming row fully replaces the existing row for its date), and the
spec's replacement example holds (rates are not unioned). -/
theorem C3_mergeRows_semantics (E I : List Row) :
    (mergeRows E I).Pairwise (fun a b => a.date < b.date)
    ∧ (∀ s, dfind (mergeRows E I) s =
        match dlast I s with
        | some r => some r
        | none => dlast E s)
    ∧ mergeRows [⟨"2024-01-01", [("XAU", JVal.jn (JNum.num 10))]⟩]
        [⟨"2024-01-01", [("XAG", JVal.jn (JNum.num 5))]⟩] =
        [⟨"2024-01-01", [("XAG", JVal.jn (JNum.num 5))]⟩] := by
  refine ⟨mergeRows_strict E I, dfind_mergeRows E I, ?_⟩
  unfold mergeRows
  have h : List.foldl mapSet (List.foldl mapSet []
      [(⟨"2024-01-01", [("XAU", JVal.jn (JNum.num 10))]⟩ : Row)])
      [⟨"2024-01-01", [("XAG", JVal.jn (JNum.num 5))]⟩] =
      [⟨"2024-01-01", [("XAG", JVal.jn (JNum.num 5))]⟩] := rfl
  rw [h]
  exact List.mergeSort_of_sorted (by simp)

/-! ## C7: same-day re-run of the daily update -/

/-- Replacing the first matching row leaves the date sequence unchanged. -/
theorem set_dates_of_findIdx (date : String) (rates : List (String × JVal)) :
    ∀ (rows : List Row) (i : Nat),
    rows.findIdx? (fun r => r.date = date) = some i →
    (rows.set i ⟨date, rates⟩).map Row.date = rows.map Row.date := by
  intro rows
  induction rows with
  | nil => intro i h; simp at h
  | cons x xs ih =>
      intro i h
      rw [List.findIdx?_cons] at h
      by_cases px : x.date = date
      · rw [if_pos (by simpa using px)] at h
        have hi : i = 0 := (Option.some.inj h).symm
        subst hi
        simp [px]
      · rw [if_neg (by simpa using px), List.findIdx?_succ] at h
        rcases Option.map_eq_some'.mp h with ⟨j, hj, hij⟩
        subst hij
        simp only [List.set_cons_succ, List.map_cons]
        rw [ih j hj]

/-- After replacing the first matching row, it is the only row with the
date (given distinct dates). -/
theorem filter_set_of_findIdx (date : String) (rates : List (String × JVal)) :
    ∀ (rows : List Row) (i : Nat), (rows.map Row.date).Nodup →
    rows.findIdx? (fun r => r.date = date) = some i →
    (rows.set i ⟨date, rates⟩).filter (fun r => r.date = date) =
      [⟨date, rates⟩] := by
  intro rows
  induction rows with
  | nil => intro i _ h; simp at h
  | cons x xs ih =>
      intro i hnd h
      simp only [List.map_cons, List.nodup_cons] at hnd
      rw [List.findIdx?_cons] at h
      by_cases px : x.date = date
      · rw [if_pos (by simpa using px)] at h
        have hi : i = 0 := (Option.some.inj h).symm
        subst hi
        simp only [List.set_cons_zero, List.filter_cons]
        rw [if_pos (by simp)]
        have hxs : List.filter (fun r => decide (r.date = date)) xs = [] := by
          rw [List.filter_eq_nil_iff]
          intro r hr
          simp only [decide_eq_true_eq]
          intro hrd
          apply hnd.1
          rw [px, ← hrd]
          exact List.mem_map_of_mem Row.date hr
        rw [hxs]
      · rw [if_neg (by simpa using px), List.findIdx?_succ] at h
        rcases Option.map_eq_some'.mp h with ⟨j, hj, hij⟩
        subst hij
        simp only [List.set_cons_succ, List.filter_cons]
        rw [if_neg (by simpa using px)]
        exact ih j hnd.2 hj

/-- Replacing the first matching row does not change the rows of other
dates. -/
theorem filter_ne_set_of_findIdx (date : String) (rates : List (String × JVal)) :
    ∀ (rows : List Row) (i : Nat),
    rows.findIdx? (fun r => r.date = date) = some i →
    (rows.set i ⟨date, rates⟩).filter (fun r => ¬ r.date = date) =
      rows.filter (fun r => ¬ r.date = date) := by
  intro rows
  induction rows with
  | nil => intro i h; simp at h
  | cons x xs ih =>
      intro i h
      rw [List.findIdx?_cons] at h
      by_cases px : x.date = date
      · rw [if_pos (by simpa using px)] at h
        have hi : i = 0 := (Option.some.inj h).symm
        subst hi
        simp only [List.set_cons_zero, List.filter_cons]
        rw [if_neg (by simp), if_neg (by simp [px])]
      · rw [if_neg (by simpa using px), List.findIdx?_succ] at h
        rcases Option.map_eq_some'.mp h with ⟨j, hj, hij⟩
        subst hij
        simp only [List.set_cons_succ, List.filter_cons]
        rw [ih j hj]

/-- `appendOrReplaceRow` leaves exactly one row for the written date:
the new one. -/
theorem appendOrReplaceRow_filter_eq (rows : List Row) (date : String)
    (rates : List (String × JVal)) (hnd : (rows.map Row.date).Nodup) :
    (appendOrReplaceRow rows date rates).filter (fun r => r.date = date) =
      [⟨date, rates⟩] := by
  unfold appendOrReplaceRow
  cases hfi : rows.findIdx? (fun r => r.date = date) with
  | some i =>
      simp only
      have h1 := filter_set_of_findIdx date rates rows i hnd hfi
      have hperm := (sortRows_perm (rows.set i ⟨date, rates⟩)).filter
        (fun r => decide (r.date = date))
      rw [h1] at hperm
      exact List.perm_singleton.mp hperm
  | none =>
      simp only
      have hnone : ∀ r ∈ rows, ¬ r.date = date := by
        intro r hr
        have := List.findIdx?_eq_none_iff.mp hfi r hr
        simpa using this
      have h1 : (rows ++ [(⟨date, rates⟩ : Row)]).filter
          (fun r => r.date = date) = [⟨date, rates⟩] := by
        rw [List.filter_append]
        rw [List.filter_eq_nil_iff.mpr (by simpa using hnone)]
        simp
      have hperm := (sortRows_perm (rows ++ [(⟨date, rates⟩ : Row)])).filter
        (fun r => decide (r.date = date))
      rw [h1] at hperm
      exact List.perm_singleton.mp hperm

/-- `appendOrReplaceRow` keeps the dates pairwise distinct. -/
theorem appendOrReplaceRow_nodup (rows : List Row) (date : String)
    (rates : List (String × JVal)) (hnd : (rows.map Row.date).Nodup) :
    ((appendOrReplaceRow rows date rates).map Row.date).Nodup := by
  unfold appendOrReplaceRow
  cases hfi : rows.findIdx? (fun r => r.date = date) with
  | some i =>
      simp only
      refine ((sortRows_perm _).map Row.date).nodup_iff.mpr ?_
      rw [set_dates_of_findIdx date rates rows i hfi]
      exact hnd
  | none =>
      simp only
      refine ((sortRows_perm _).map Row.date).nodup_iff.mpr ?_
      have hnone : ∀ r ∈ rows, ¬ r.date = date := by
        intro r hr
        have := List.findIdx?_eq_none_iff.mp hfi r hr
        simpa using this
      simp only [List.map_append, List.map_cons, List.map_nil]
      rw [List.nodup_append]
      refine ⟨hnd, List.nodup_singleton _, ?_⟩
      intro s hs hs2
      rcases List.mem_map.mp hs with ⟨r, hr, hrs⟩
      exact hnone r hr (by rw [hrs]; exact List.mem_singleton.mp hs2)

/-- `appendOrReplaceRow` preserves the rows of all other dates. -/
theorem appendOrReplaceRow_filter_ne (rows : List Row) (date : String)
    (rates : List (String × JVal)) :
    List.Perm ((appendOrReplaceRow rows date rates).filter
      (fun r => ¬ r.date = date)) (rows.filter (fun r => ¬ r.date = date)) := by
  unfold appendOrReplaceRow
  cases hfi : rows.findIdx? (fun r => r.date = date) with
  | some i =>
      simp only
      have hperm := (sortRows_perm (rows.set i ⟨date, rates⟩)).filter
        (fun r => decide (¬ r.date = date))
      rw [filter_ne_set_of_findIdx date rates rows i hfi] at hperm
      exact hperm
  | none =>
      simp only
      have hperm := (sortRows_perm (rows ++ [(⟨date, rates⟩ : Row)])).filter
        (fun r => decide (¬ r.date = date))
      rw [List.filter_append] at hperm
      simp only [List.filter_cons, List.filter_nil] at hperm
      rw [if_neg (by simp)] at hperm
      simpa using hperm

/-- `appendOrReplaceRow` re-sorts (strictly, given distinct dates). -/
theorem appendOrReplaceRow_sorted (rows : List Row) (date : String)
    (rates : List (String × JVal)) (hnd : (rows.map Row.date).Nodup) :
    (appendOrReplaceRow rows date rates).Pairwise (fun a b => a.date < b.date) := by
  unfold appendOrReplaceRow
  cases hfi : rows.findIdx? (fun r => r.date = date) with
  | some i =>
      simp only
      refine sortRows_strict _ ?_
      rw [set_dates_of_findIdx date rates rows i hfi]
      exact hnd
  | none =>
      simp only
      refine sortRows_strict _ ?_
      have hnone : ∀ r ∈ rows, ¬ r.date = date := by
        intro r hr
        have := List.findIdx?_eq_none_iff.mp hfi r hr
        simpa using this
      simp only [List.map_append, List.map_cons, List.map_nil]
      rw [List.nodup_append]
      refine ⟨hnd, List.nodup_singleton _, ?_⟩
      intro s hs hs2
      rcases List.mem_map.mp hs with ⟨r, hr, hrs⟩
      exact hnone r hr (by rw [hrs]; exact List.mem_singleton.mp hs2)

/-- C7.  Running the daily update twice on the same UTC date with two
valid fetched rate mappings succeeds both times and leaves exactly one
row for that date, holding the second call's rates; rows of other dates
are preserved, and the store is strictly sorted by date after the
mutation (replace-if-present, append-otherwise). -/
theorem C7_daily_rerun (series : Series) (meta : Meta)
    (today nowTs1 nowTs2 : String) (jb1 jb2 : Option String)
    (jr1 jr2 : List (String × JVal))
    (hnd : (series.rows.map Row.date).Nodup)
    (hv1 : ∀ k ∈ DAILY_METALS, goodRate (jsGet jr1 k))
    (hv2 : ∀ k ∈ DAILY_METALS, goodRate (jsGet jr2 k)) :
    ∃ s1 m1 s2 m2,
      updateDaily series meta today nowTs1 jb1 jr1 = .ok (s1, m1)
      ∧ updateDaily s1 m1 today nowTs2 jb2 jr2 = .ok (s2, m2)
      ∧ s2.rows.filter (fun r => r.date = today) = [⟨today, jr2⟩]
      ∧ s2.rows.Pairwise (fun a b => a.date < b.date)
      ∧ List.Perm (s2.rows.filter (fun r => ¬ r.date = today))
          (series.rows.filter (fun r => ¬ r.date = today)) := by
  have hvr1 : validateRates jr1 = .ok () :=
    (validateRatesGo_ok_iff jr1 DAILY_METALS).mpr hv1
  have hvr2 : validateRates jr2 = .ok () :=
    (validateRatesGo_ok_iff jr2 DAILY_METALS).mpr hv2
  refine ⟨⟨(jb1.getD "USD").toUpper, DAILY_METALS,
      appendOrReplaceRow series.rows today jr1⟩,
    ⟨some nowTs1, some (jb1.getD "USD").toUpper, DAILY_METALS⟩,
    ⟨(jb2.getD "USD").toUpper, DAILY_METALS,
      appendOrReplaceRow (appendOrReplaceRow series.rows today jr1) today jr2⟩,
    ⟨some nowTs2, some (jb2.getD "USD").toUpper, DAILY_METALS⟩, ?_, ?_, ?_, ?_, ?_⟩
  · simp only [updateDaily, hvr1]
  · simp only [updateDaily, hvr2]
  · exact appendOrReplaceRow_filter_eq _ today jr2
      (appendOrReplaceRow_nodup series.rows today jr1 hnd)
  · exact appendOrReplaceRow_sorted _ today jr2
      (appendOrReplaceRow_nodup series.rows today jr1 hnd)
  · exact (appendOrReplaceRow_filter_ne _ today jr2).trans
      (appendOrReplaceRow_filter_ne series.rows today jr1)

/-- Witness for C7: an empty store updated twice on the same day with
two different valid snapshots ends with the single second-snapshot row. -/
theorem C7_daily_rerun_witness :
    ∃ s1 m1 s2 m2,
      updateDaily ⟨"USD", [], []⟩ ⟨none, none, []⟩ "2025-01-02" "t1" none
        (DAILY_METALS.map (fun k => (k, JVal.jn (JNum.num 1)))) = .ok (s1, m1)
      ∧ updateDaily s1 m1 "2025-01-02" "t2" none
          (DAILY_METALS.map (fun k => (k, JVal.jn (JNum.num 2)))) = .ok (s2, m2)
      ∧ s2.rows.filter (fun r => r.date = "2025-01-02") =
          [⟨"2025-01-02", DAILY_METALS.map (fun k => (k, JVal.jn (JNum.num 2)))⟩]
      ∧ s2.rows.Pairwise (fun a b => a.date < b.date)
      ∧ List.Perm (s2.rows.filter (fun r => ¬ r.date = "2025-01-02"))
          (([] : List Row).filter (fun r => ¬ r.date = "2025-01-02")) :=
  C7_daily_rerun ⟨"USD", [], []⟩ ⟨none, none, []⟩ "2025-01-02" "t1" "t2" none none
    _ _ (by simp) (by decide) (by decide)

/-! ## C10: parseISODate / fmtDateUTC round trip -/

/-- A decimal digit character, presented by its value. -/
def IsDigitChar (c : Char) : Prop := ∃ k : Nat, k < 10 ∧ c = Char.ofNat (48 + k)

theorem digitChar_toNat (k : Nat) (h : k < 10) :
    (Char.ofNat (48 + k)).toNat = 48 + k := by
  interval_cases k <;> decide

theorem digitChar_isDigit (k : Nat) (h : k < 10) :
    (Char.ofNat (48 + k)).isDigit = true := by
  interval_cases k <;> decide

theorem digitChar_ne_dash (k : Nat) (h : k < 10) :
    Char.ofNat (48 + k) ≠ ('-' : Char) := by
  interval_cases k <;> decide

theorem digitChar_lt_iff (k1 k2 : Nat) (h1 : k1 < 10) (h2 : k2 < 10) :
    (Char.ofNat (48 + k1) < Char.ofNat (48 + k2)) ↔ k1 < k2 := by
  interval_cases k1 <;> interval_cases k2 <;> decide

theorem digitChar_inj (k1 k2 : Nat) (h1 : k1 < 10) (h2 : k2 < 10) :
    (Char.ofNat (48 + k1) = Char.ofNat (48 + k2)) ↔ k1 = k2 := by
  interval_cases k1 <;> interval_cases k2 <;> decide

/-- The fuel does not matter once it exceeds the number. -/
theorem natDigitsAux_fuel : ∀ (f1 : Nat), ∀ (f2 n : Nat), n < f1 → n < f2 →
    natDigitsAux f1 n = natDigitsAux f2 n := by
  intro f1
  induction f1 with
  | zero => intro f2 n h1 _; omega
  | succ g ih =>
      intro f2 n h1 h2
      cases f2 with
      | zero => omega
      | succ h =>
          simp only [natDigitsAux]
          by_cases hn : n < 10
          · rw [if_pos hn, if_pos hn]
          · rw [if_neg hn, if_neg hn]
            rw [ih h (n / 10) (by omega) (by omega)]

/-- Unfolding equation for `natDigits`. -/
theorem natDigits_eq (n : Nat) : natDigits n =
    if n < 10 then [Char.ofNat (48 + n)]
    else natDigits (n / 10) ++ [Char.ofNat (48 + n % 10)] := by
  unfold natDigits
  conv_lhs => rw [natDigitsAux]
  by_cases hn : n < 10
  · rw [if_pos hn, if_pos hn]
  · rw [if_neg hn, if_neg hn]
    rw [natDigitsAux_fuel n (n / 10 + 1) (n / 10) (by omega) (by omega)]

theorem natDigits_ne_nil (n : Nat) : natDigits n ≠ [] := by
  rw [natDigits_eq]
  by_cases hn : n < 10
  · rw [if_pos hn]; simp
  · rw [if_neg hn]; simp

/-- Every character of `natDigits` is a decimal digit. -/
theorem natDigits_digits (n : Nat) : ∀ c ∈ natDigits n, IsDigitChar c := by
  induction n using Nat.strong_induction_on with
  | _ n ih =>
      rw [natDigits_eq]
      by_cases hn : n < 10
      · rw [if_pos hn]
        intro c hc
        rcases List.mem_singleton.mp hc with rfl
        exact ⟨n, hn, rfl⟩
      · rw [if_neg hn]
        intro c hc
        rcases List.mem_append.mp hc with hc | hc
        · exact ih (n / 10) (by omega) c hc
        · rcases List.mem_singleton.mp hc with rfl
          exact ⟨n % 10, by omega, rfl⟩

/-- `digitsVal` with an accumulator. -/
theorem digitsVal_go (l : List Char) : ∀ acc : Nat,
    l.foldl (fun acc c => 10 * acc + (c.toNat - 48)) acc =
      acc * 10 ^ l.length + digitsVal l := by
  induction l with
  | nil => intro acc; simp [digitsVal]
  | cons c t ih =>
      intro acc
      simp only [List.foldl_cons, List.length_cons]
      rw [ih (10 * acc + (c.toNat - 48))]
      show _ = acc * 10 ^ (t.length + 1) + digitsVal (c :: t)
      have : digitsVal (c :: t) = (c.toNat - 48) * 10 ^ t.length + digitsVal t := by
        unfold digitsVal
        simp only [List.foldl_cons]
        rw [ih (10 * 0 + (c.toNat - 48))]
        ring_nf
        rfl
      rw [this]
      ring

/-- Head decomposition of `digitsVal`. -/
theorem digitsVal_cons (c : Char) (t : List Char) :
    digitsVal (c :: t) = (c.toNat - 48) * 10 ^ t.length + digitsVal t := by
  unfold digitsVal
  simp only [List.foldl_cons]
  rw [digitsVal_go t (10 * 0 + (c.toNat - 48))]
  ring_nf
  rfl

/-- Concatenation of a final digit. -/
theorem digitsVal_concat (l : List Char) (c : Char) :
    digitsVal (l ++ [c]) = 10 * digitsVal l + (c.toNat - 48) := by
  unfold digitsVal
  rw [List.foldl_append]
  simp

/-- The value of a digit list is bounded by its width. -/
theorem digitsVal_lt (l : List Char) (h : ∀ c ∈ l, IsDigitChar c) :
    digitsVal l < 10 ^ l.length := by
  induction l with
  | nil => simp [digitsVal]
  | cons c t ih =>
      rw [digitsVal_cons]
      obtain ⟨k, hk, rfl⟩ := h c (List.mem_cons_self _ _)
      rw [digitChar_toNat k hk]
      have h1 : digitsVal t < 10 ^ t.length :=
        ih (fun c hc => h c (List.mem_cons_of_mem _ hc))
      have h2 : 48 + k - 48 = k := by omega
      rw [h2]
      simp only [List.length_cons, pow_succ]
      nlinarith

/-- `natDigits` prints the number it is given. -/
theorem digitsVal_natDigits (n : Nat) : digitsVal (natDigits n) = n := by
  induction n using Nat.strong_induction_on with
  | _ n ih =>
      rw [natDigits_eq]
      by_cases hn : n < 10
      · rw [if_pos hn]
        unfold digitsVal
        simp [digitChar_toNat n hn]
      · rw [if_neg hn]
        rw [digitsVal_concat]
        rw [ih (n / 10) (by omega)]
        rw [digitChar_toNat (n % 10) (by omega)]
        omega

/-- Width of the printed number, for the ranges the claims need. -/
theorem natDigits_length_ranges (n : Nat) :
    (n < 10 → (natDigits n).length = 1)
    ∧ (10 ≤ n → n < 100 → (natDigits n).length = 2)
    ∧ (100 ≤ n → n < 1000 → (natDigits n).length = 3)
    ∧ (1000 ≤ n → n < 10000 → (natDigits n).length = 4) := by
  refine ⟨?_, ?_, ?_, ?_⟩
  · intro h
    rw [natDigits_eq, if_pos h]
    rfl
  · intro h1 h2
    rw [natDigits_eq, if_neg (by omega)]
    rw [List.length_append]
    rw [natDigits_eq, if_pos (by omega)]
    rfl
  · intro h1 h2
    rw [natDigits_eq, if_neg (by omega)]
    rw [List.length_append]
    rw [natDigits_eq, if_neg (by omega)]
    rw [List.length_append]
    rw [natDigits_eq, if_pos (by omega)]
    rfl
  · intro h1 h2
    rw [natDigits_eq, if_neg (by omega)]
    rw [List.length_append]
    rw [natDigits_eq, if_neg (by omega)]
    rw [List.length_append]
    rw [natDigits_eq, if_neg (by omega)]
    rw [List.length_append]
    rw [natDigits_eq, if_pos (by omega)]
    rfl

theorem isDigitChar_isDigit {c : Char} (h : IsDigitChar c) : c.isDigit = true := by
  obtain ⟨k, hk, rfl⟩ := h
  exact digitChar_isDigit k hk

theorem isDigitChar_ne_dash {c : Char} (h : IsDigitChar c) : c ≠ ('-' : Char) := by
  obtain ⟨k, hk, rfl⟩ := h
  exact digitChar_ne_dash k hk

theorem zeroChar_isDigitChar : IsDigitChar ('0' : Char) := ⟨0, by omega, by decide⟩

/-- The character list of `padTwo` for the month/day ranges. -/
theorem padTwo_data (n : Int) (h1 : 1 ≤ n) (h2 : n ≤ 99) :
    (padTwo n).data =
      if n < 10 then '0' :: natDigits n.toNat else natDigits n.toNat := by
  have hI : intToString n = String.mk (natDigits n.toNat) := by
    unfold intToString
    rw [if_neg (by omega)]
  unfold padTwo
  rw [hI]
  by_cases hn : n < 10
  · rw [if_pos hn]
    rw [if_pos ?_]
    · rfl
    · rw [String.length_mk]
      rw [(natDigits_length_ranges n.toNat).1 (by omega)]
      omega
  · rw [if_neg hn]
    rw [if_neg ?_]
    rw [String.length_mk]
    rw [(natDigits_length_ranges n.toNat).2.1 (by omega) (by omega)]
    omega

theorem padTwo_digits (n : Int) (h1 : 1 ≤ n) (h2 : n ≤ 99) :
    ∀ c ∈ (padTwo n).data, IsDigitChar c := by
  rw [padTwo_data n h1 h2]
  by_cases hn : n < 10
  · rw [if_pos hn]
    intro c hc
    rcases List.mem_cons.mp hc with rfl | hc
    · exact zeroChar_isDigitChar
    · exact natDigits_digits n.toNat c hc
  · rw [if_neg hn]
    exact natDigits_digits n.toNat

theorem padTwo_length (n : Int) (h1 : 1 ≤ n) (h2 : n ≤ 99) :
    (padTwo n).data.length = 2 := by
  rw [padTwo_data n h1 h2]
  by_cases hn : n < 10
  · rw [if_pos hn]
    simp only [List.length_cons]
    rw [(natDigits_length_ranges n.toNat).1 (by omega)]
  · rw [if_neg hn]
    exact (natDigits_length_ranges n.toNat).2.1 (by omega) (by omega)

theorem padTwo_val (n : Int) (h1 : 1 ≤ n) (h2 : n ≤ 99) :
    digitsVal (padTwo n).data = n.toNat := by
  rw [padTwo_data n h1 h2]
  by_cases hn : n < 10
  · rw [if_pos hn]
    rw [digitsVal_cons]
    have h0 : ('0' : Char).toNat - 48 = 0 := by decide
    rw [h0, digitsVal_natDigits]
    ring
  · rw [if_neg hn]
    exact digitsVal_natDigits n.toNat

theorem padTwo_ne_nil (n : Int) (h1 : 1 ≤ n) (h2 : n ≤ 99) :
    (padTwo n).data ≠ [] := by
  intro h
  have := padTwo_length n h1 h2
  rw [h] at this
  exact absurd this (by simp)

/-- The well-formed ISO string of a date: unpadded year (4 digits
exactly when `1000 ≤ y ≤ 9999`), zero-padded month and day. -/
def isoString (y m d : Int) : String :=
  intToString y ++ "-" ++ padTwo m ++ "-" ++ padTwo d

/-- A separator-free list is a single split piece. -/
theorem jsSplitChar_no_sep (l : List Char) (h : ∀ c ∈ l, c ≠ ('-' : Char)) :
    jsSplitChar '-' l = [l] := by
  induction l with
  | nil => rfl
  | cons c cs ih =>
      simp only [jsSplitChar]
      rw [if_neg (h c (List.mem_cons_self _ _))]
      rw [ih (fun x hx => h x (List.mem_cons_of_mem _ hx))]

/-- Splitting at the first separator. -/
theorem jsSplitChar_sep (a b : List Char) (h : ∀ c ∈ a, c ≠ ('-' : Char)) :
    jsSplitChar '-' (a ++ '-' :: b) = a :: jsSplitChar '-' b := by
  induction a with
  | nil =>
      show jsSplitChar '-' ('-' :: b) = [] :: jsSplitChar '-' b
      simp [jsSplitChar]
  | cons c cs ih =>
      show jsSplitChar '-' (c :: (cs ++ '-' :: b)) = (c :: cs) :: jsSplitChar '-' b
      rw [jsSplitChar]
      rw [if_neg (h c (List.mem_cons_self _ _))]
      rw [ih (fun x hx => h x (List.mem_cons_of_mem _ hx))]

/-- `parseISODate` recovers the day number from the ISO string of a
valid date with year at least 100 (no two-digit-year remapping). -/
theorem parse_isoString (y m d : Int) (hv : ValidDate y m d) (hy : 100 ≤ y) :
    parseISODate (isoString y m d) = some (daysFromCivil y m d) := by
  obtain ⟨hm1, hm2, hd1, hd2⟩ := hv
  have hd31 : d ≤ 31 := by
    have := hd2
    unfold daysInMonth at this
    split_ifs at this <;> omega
  have hYd : ∀ c ∈ natDigits y.toNat, IsDigitChar c := natDigits_digits y.toNat
  have hMd := padTwo_digits m hm1 (by omega)
  have hDd := padTwo_digits d hd1 (by omega)
  have hdata : (isoString y m d).data =
      natDigits y.toNat ++ '-' :: ((padTwo m).data ++ '-' :: (padTwo d).data) := by
    unfold isoString intToString
    rw [if_neg (by omega)]
    simp only [String.data_append]
    simp [List.append_assoc]
  unfold parseISODate
  rw [hdata]
  rw [jsSplitChar_sep _ _ (fun c hc => isDigitChar_ne_dash (hYd c hc))]
  rw [jsSplitChar_sep _ _ (fun c hc => isDigitChar_ne_dash (hMd c hc))]
  rw [jsSplitChar_no_sep _ (fun c hc => isDigitChar_ne_dash (hDd c hc))]
  simp only
  have hnumY : jsNumOfString (natDigits y.toNat) = some ((y.toNat : Nat) : Int) := by
    unfold jsNumOfString
    rw [if_neg (natDigits_ne_nil y.toNat)]
    rw [if_pos ?_]
    · rw [digitsVal_natDigits]
    · rw [List.all_eq_true]
      intro c hc
      exact isDigitChar_isDigit (hYd c hc)
  have hnumM : jsNumOfString (padTwo m).data = some ((m.toNat : Nat) : Int) := by
    unfold jsNumOfString
    rw [if_neg (padTwo_ne_nil m hm1 (by omega))]
    rw [if_pos ?_]
    · rw [padTwo_val m hm1 (by omega)]
    · rw [List.all_eq_true]
      intro c hc
      exact isDigitChar_isDigit (hMd c hc)
  have hnumD : jsNumOfString (padTwo d).data = some ((d.toNat : Nat) : Int) := by
    unfold jsNumOfString
    rw [if_neg (padTwo_ne_nil d hd1 (by omega))]
    rw [if_pos ?_]
    · rw [padTwo_val d hd1 (by omega)]
    · rw [List.all_eq_true]
      intro c hc
      exact isDigitChar_isDigit (hDd c hc)
  rw [hnumY, hnumM, hnumD]
  simp only
  have hy' : ((y.toNat : Nat) : Int) = y := Int.toNat_of_nonneg (by omega)
  have hm' : ((m.toNat : Nat) : Int) = m := Int.toNat_of_nonneg (by omega)
  have hd' : ((d.toNat : Nat) : Int) = d := Int.toNat_of_nonneg (by omega)
  rw [hy', hm', hd']
  rw [jsDateUTC_eq_makeDay y (m - 1) d (by omega)]
  rw [jsMakeDay_eq_daysFromCivil y m d hm1 hm2]

/-- `fmtDateUTC` of the day number of a valid date is its ISO string. -/
theorem fmt_daysFromCivil (y m d : Int) (hv : ValidDate y m d) :
    fmtDateUTC (daysFromCivil y m d) = isoString y m d := by
  obtain ⟨hgY, hgM, hgD⟩ := civil_getters y m d hv
  unfold fmtDateUTC isoString
  rw [hgY, hgM, hgD]

/-- The month length as the distance between consecutive first-of-month
day numbers. -/
theorem dayOfFirst_len (y m : Int) (hm1 : 1 ≤ m) (hm2 : m ≤ 12) :
    dayOfFirst (12 * y + (m - 1) + 1) =
      dayOfFirst (12 * y + (m - 1)) + daysInMonth y m := by
  unfold dayOfFirst daysFromCivil daysInMonth
  interval_cases m <;> split_ifs <;> omega

/-- Chronological monotonicity: the lexicographically earlier valid date
has the smaller day number. -/
theorem daysFromCivil_lt_of_lex (y1 m1 d1 y2 m2 d2 : Int)
    (hv1 : ValidDate y1 m1 d1) (hv2 : ValidDate y2 m2 d2)
    (h : y1 < y2 ∨ (y1 = y2 ∧ (m1 < m2 ∨ (m1 = m2 ∧ d1 < d2)))) :
    daysFromCivil y1 m1 d1 < daysFromCivil y2 m2 d2 := by
  obtain ⟨hm11, hm12, hd11, hd12⟩ := hv1
  obtain ⟨hm21, hm22, hd21, hd22⟩ := hv2
  have he1 : daysFromCivil y1 m1 d1 = dayOfFirst (12 * y1 + (m1 - 1)) + (d1 - 1) := by
    rw [← jsMakeDay_eq_daysFromCivil y1 m1 d1 hm11 hm12]
    rfl
  have he2 : daysFromCivil y2 m2 d2 = dayOfFirst (12 * y2 + (m2 - 1)) + (d2 - 1) := by
    rw [← jsMakeDay_eq_daysFromCivil y2 m2 d2 hm21 hm22]
    rfl
  have hlen1 := dayOfFirst_len y1 m1 hm11 hm12
  rcases (show 12 * y1 + (m1 - 1) + 1 ≤ 12 * y2 + (m2 - 1)
      ∨ (y1 = y2 ∧ m1 = m2 ∧ d1 < d2) from by omega) with ht | ⟨hy, hm, hd⟩
  · have hmono := dayOfFirst_mono ht
    omega
  · subst hy
    subst hm
    omega

/-- Valid dates with the same day number are equal. -/
theorem daysFromCivil_inj (y1 m1 d1 y2 m2 d2 : Int)
    (hv1 : ValidDate y1 m1 d1) (hv2 : ValidDate y2 m2 d2)
    (h : daysFromCivil y1 m1 d1 = daysFromCivil y2 m2 d2) :
    y1 = y2 ∧ m1 = m2 ∧ d1 = d2 := by
  have r1 := civilFromDays_daysFromCivil y1 m1 d1 hv1
  have r2 := civilFromDays_daysFromCivil y2 m2 d2 hv2
  rw [h, r2] at r1
  refine ⟨?_, ?_, ?_⟩
  · have := congrArg Prod.fst r1
    simpa using this.symm
  · have := congrArg (fun p : Int × Int × Int => p.2.1) r1
    simpa using this.symm
  · have := congrArg (fun p : Int × Int × Int => p.2.2) r1
    simpa using this.symm

/-- Chronological order of day numbers is the lexicographic order of
valid dates. -/
theorem daysFromCivil_lt_iff (y1 m1 d1 y2 m2 d2 : Int)
    (hv1 : ValidDate y1 m1 d1) (hv2 : ValidDate y2 m2 d2) :
    daysFromCivil y1 m1 d1 < daysFromCivil y2 m2 d2 ↔
      (y1 < y2 ∨ (y1 = y2 ∧ (m1 < m2 ∨ (m1 = m2 ∧ d1 < d2)))) := by
  rcases (show (y1 < y2 ∨ (y1 = y2 ∧ (m1 < m2 ∨ (m1 = m2 ∧ d1 < d2))))
      ∨ (y1 = y2 ∧ m1 = m2 ∧ d1 = d2)
      ∨ (y2 < y1 ∨ (y2 = y1 ∧ (m2 < m1 ∨ (m2 = m1 ∧ d2 < d1)))) from by omega)
    with h | h | h
  · exact iff_of_true (daysFromCivil_lt_of_lex y1 m1 d1 y2 m2 d2 hv1 hv2 h) h
  · obtain ⟨rfl, rfl, rfl⟩ := h
    exact iff_of_false (lt_irrefl _) (by omega)
  · have hgt := daysFromCivil_lt_of_lex y2 m2 d2 y1 m1 d1 hv2 hv1 h
    exact iff_of_false (by omega) (by omega)

/-- Head comparison for character lexicographic order. -/
theorem lexCharConsIff (a b : Char) (l₁ l₂ : List Char) :
    List.Lex (· < ·) (a :: l₁) (b :: l₂) ↔
      a < b ∨ (a = b ∧ List.Lex (· < ·) l₁ l₂) := by
  constructor
  · intro h
    cases h with
    | cons h => exact Or.inr ⟨rfl, h⟩
    | rel h => exact Or.inl h
  · rintro (h | ⟨rfl, h⟩)
    · exact List.Lex.rel h
    · exact List.Lex.cons h

/-- Lexicographic comparison through equal-width prefixes. -/
theorem lex_append_iff : ∀ (a1 a2 r1 r2 : List Char), a1.length = a2.length →
    (List.Lex (· < ·) (a1 ++ r1) (a2 ++ r2) ↔
      List.Lex (· < ·) a1 a2 ∨ (a1 = a2 ∧ List.Lex (· < ·) r1 r2)) := by
  intro a1
  induction a1 with
  | nil =>
      intro a2 r1 r2 hl
      cases a2 with
      | nil =>
          simp only [List.nil_append]
          constructor
          · intro h
            exact Or.inr ⟨by simp, h⟩
          · rintro (h | ⟨-, h⟩)
            · exact absurd h (List.Lex.not_nil_right _ _)
            · exact h
      | cons c2 t2 => simp at hl
  | cons c t ih =>
      intro a2 r1 r2 hl
      cases a2 with
      | nil => simp at hl
      | cons c2 t2 =>
          simp only [List.cons_append]
          rw [lexCharConsIff, lexCharConsIff, ih t2 r1 r2 (by simpa using hl)]
          simp only [List.cons.injEq]
          tauto

/-- A digit-block comparison: a smaller leading block or an equal block
with a smaller remainder gives the smaller value. -/
theorem chunk_lt (k1 k2 v1 v2 P : Nat) (h1 : v1 < P)
    (h : k1 < k2 ∨ (k1 = k2 ∧ v1 < v2)) : k1 * P + v1 < k2 * P + v2 := by
  rcases h with h | ⟨rfl, h⟩
  · calc k1 * P + v1 < k1 * P + P := by omega
      _ = (k1 + 1) * P := by ring
      _ ≤ k2 * P := Nat.mul_le_mul_right P (by omega)
      _ ≤ k2 * P + v2 := Nat.le_add_right _ _
  · omega

/-- Equal-width digit lists compare lexicographically by value. -/
theorem digitList_lt_iff : ∀ (a b : List Char), a.length = b.length →
    (∀ c ∈ a, IsDigitChar c) → (∀ c ∈ b, IsDigitChar c) →
    (List.Lex (· < ·) a b ↔ digitsVal a < digitsVal b) := by
  intro a
  induction a with
  | nil =>
      intro b hl _ _
      cases b with
      | nil =>
          constructor
          · intro h
            exact absurd h (List.Lex.not_nil_right _ _)
          · intro h
            exact absurd h (lt_irrefl _)
      | cons c2 t2 => simp at hl
  | cons c t ih =>
      intro b hl ha hb
      cases b with
      | nil => simp at hl
      | cons c2 t2 =>
          obtain ⟨k1, hk1, rfl⟩ := ha _ (List.mem_cons_self _ _)
          obtain ⟨k2, hk2, rfl⟩ := hb _ (List.mem_cons_self _ _)
          have hlen : t.length = t2.length := by simpa using hl
          have hta : ∀ c ∈ t, IsDigitChar c :=
            fun c hc => ha c (List.mem_cons_of_mem _ hc)
          have htb : ∀ c ∈ t2, IsDigitChar c :=
            fun c hc => hb c (List.mem_cons_of_mem _ hc)
          rw [lexCharConsIff, digitsVal_cons, digitsVal_cons]
          rw [digitChar_toNat k1 hk1, digitChar_toNat k2 hk2]
          rw [digitChar_lt_iff k1 k2 hk1 hk2, digitChar_inj k1 k2 hk1 hk2]
          rw [ih t2 hlen hta htb]
          have e1 : 48 + k1 - 48 = k1 := by omega
          have e2 : 48 + k2 - 48 = k2 := by omega
          rw [e1, e2, hlen]
          have hb1 : digitsVal t < 10 ^ t2.length := hlen ▸ digitsVal_lt t hta
          have hb2 : digitsVal t2 < 10 ^ t2.length := digitsVal_lt t2 htb
          constructor
          · intro h
            exact chunk_lt k1 k2 (digitsVal t) (digitsVal t2) _ hb1 h
          · intro hval
            rcases Nat.lt_trichotomy k1 k2 with hk | hk | hk
            · exact Or.inl hk
            · subst hk
              refine Or.inr ⟨rfl, ?_⟩
              exact Nat.lt_of_add_lt_add_left hval
            · exfalso
              have := chunk_lt k2 k1 (digitsVal t2) (digitsVal t) _ hb2 (Or.inl hk)
              exact absurd (lt_trans hval this) (lt_irrefl _)

/-- Equal-width digit lists are equal exactly when their values are. -/
theorem digitList_inj : ∀ (a b : List Char), a.length = b.length →
    (∀ c ∈ a, IsDigitChar c) → (∀ c ∈ b, IsDigitChar c) →
    (a = b ↔ digitsVal a = digitsVal b) := by
  intro a
  induction a with
  | nil =>
      intro b hl _ _
      cases b with
      | nil => simp
      | cons c2 t2 => simp at hl
  | cons c t ih =>
      intro b hl ha hb
      cases b with
      | nil => simp at hl
      | cons c2 t2 =>
          obtain ⟨k1, hk1, rfl⟩ := ha _ (List.mem_cons_self _ _)
          obtain ⟨k2, hk2, rfl⟩ := hb _ (List.mem_cons_self _ _)
          have hlen : t.length = t2.length := by simpa using hl
          have hta : ∀ c ∈ t, IsDigitChar c :=
            fun c hc => ha c (List.mem_cons_of_mem _ hc)
          have htb : ∀ c ∈ t2, IsDigitChar c :=
            fun c hc => hb c (List.mem_cons_of_mem _ hc)
          constructor
          · intro h
            rw [h]
          · intro hval
            rw [digitsVal_cons, digitsVal_cons,
              digitChar_toNat k1 hk1, digitChar_toNat k2 hk2] at hval
            have e1 : 48 + k1 - 48 = k1 := by omega
            have e2 : 48 + k2 - 48 = k2 := by omega
            rw [e1, e2, hlen] at hval
            have hc1 : digitsVal t < 10 ^ t2.length := hlen ▸ digitsVal_lt t hta
            have hc2 : digitsVal t2 < 10 ^ t2.length := digitsVal_lt t2 htb
            have hkk : k1 = k2 := by
              rcases Nat.lt_trichotomy k1 k2 with hk | hk | hk
              · exact absurd (chunk_lt k1 k2 _ _ _ hc1 (Or.inl hk))
                  (by rw [hval]; exact lt_irrefl _)
              · exact hk
              · exact absurd (chunk_lt k2 k1 _ _ _ hc2 (Or.inl hk))
                  (by rw [hval]; exact lt_irrefl _)
            subst hkk
            have hvt : digitsVal t = digitsVal t2 := Nat.add_left_cancel hval
            rw [(ih t2 hlen hta htb).mpr hvt]

/-- Shape of the character list of an ISO string. -/
theorem isoString_data (y m d : Int) (hy : 0 ≤ y) :
    (isoString y m d).data =
      natDigits y.toNat ++ '-' :: ((padTwo m).data ++ '-' :: (padTwo d).data) := by
  unfold isoString intToString
  rw [if_neg (by omega)]
  simp only [String.data_append]
  simp [List.append_assoc]

/-- For four-digit years, comparing ISO strings code-unit-wise is
comparing the dates lexicographically. -/
theorem isoString_lt_iff (y1 m1 d1 y2 m2 d2 : Int)
    (hv1 : ValidDate y1 m1 d1) (hv2 : ValidDate y2 m2 d2)
    (hy11 : 1000 ≤ y1) (hy12 : y1 ≤ 9999) (hy21 : 1000 ≤ y2) (hy22 : y2 ≤ 9999) :
    (isoString y1 m1 d1 < isoString y2 m2 d2) ↔
      (y1 < y2 ∨ (y1 = y2 ∧ (m1 < m2 ∨ (m1 = m2 ∧ d1 < d2)))) := by
  obtain ⟨hm11, hm12, hd11, hd12⟩ := hv1
  obtain ⟨hm21, hm22, hd21, hd22⟩ := hv2
  have hd31_1 : d1 ≤ 31 := by
    have := hd12
    unfold daysInMonth at this
    split_ifs at this <;> omega
  have hd31_2 : d2 ≤ 31 := by
    have := hd22
    unfold daysInMonth at this
    split_ifs at this <;> omega
  have hY1d := natDigits_digits y1.toNat
  have hY2d := natDigits_digits y2.toNat
  have hM1d := padTwo_digits m1 hm11 (by omega)
  have hM2d := padTwo_digits m2 hm21 (by omega)
  have hD1d := padTwo_digits d1 hd11 (by omega)
  have hD2d := padTwo_digits d2 hd21 (by omega)
  have hY1l : (natDigits y1.toNat).length = 4 :=
    (natDigits_length_ranges y1.toNat).2.2.2 (by omega) (by omega)
  have hY2l : (natDigits y2.toNat).length = 4 :=
    (natDigits_length_ranges y2.toNat).2.2.2 (by omega) (by omega)
  have hM1l := padTwo_length m1 hm11 (by omega)
  have hM2l := padTwo_length m2 hm21 (by omega)
  have hD1l := padTwo_length d1 hd11 (by omega)
  have hD2l := padTwo_length d2 hd21 (by omega)
  rw [String.lt_iff_toList_lt]
  show List.Lex (· < ·) (isoString y1 m1 d1).data (isoString y2 m2 d2).data ↔ _
  rw [isoString_data y1 m1 d1 (by omega), isoString_data y2 m2 d2 (by omega)]
  rw [lex_append_iff _ _ _ _ (by rw [hY1l, hY2l])]
  rw [lexCharConsIff]
  rw [lex_append_iff _ _ _ _ (by rw [hM1l, hM2l])]
  rw [lexCharConsIff]
  rw [digitList_lt_iff _ _ (by rw [hY1l, hY2l]) hY1d hY2d]
  rw [digitList_inj _ _ (by rw [hY1l, hY2l]) hY1d hY2d]
  rw [digitList_lt_iff _ _ (by rw [hM1l, hM2l]) hM1d hM2d]
  rw [digitList_inj _ _ (by rw [hM1l, hM2l]) hM1d hM2d]
  rw [digitList_lt_iff _ _ (by rw [hD1l, hD2l]) hD1d hD2d]
  rw [digitsVal_natDigits, digitsVal_natDigits]
  rw [padTwo_val m1 hm11 (by omega), padTwo_val m2 hm21 (by omega)]
  rw [padTwo_val d1 hd11 (by omega), padTwo_val d2 hd21 (by omega)]
  simp only [lt_self_iff_false, false_or, eq_self_iff_true, true_and]
  omega

/-- For four-digit years, the code-unit order of ISO strings agrees with
the chronological order of the dates. -/
theorem isoString_le_iff (y1 m1 d1 y2 m2 d2 : Int)
    (hv1 : ValidDate y1 m1 d1) (hv2 : ValidDate y2 m2 d2)
    (hy11 : 1000 ≤ y1) (hy12 : y1 ≤ 9999) (hy21 : 1000 ≤ y2) (hy22 : y2 ≤ 9999) :
    (isoString y1 m1 d1 ≤ isoString y2 m2 d2 ↔
      daysFromCivil y1 m1 d1 ≤ daysFromCivil y2 m2 d2) := by
  rw [← @not_lt String _ (isoString y2 m2 d2) (isoString y1 m1 d1)]
  rw [isoString_lt_iff y2 m2 d2 y1 m1 d1 hv2 hv1 hy21 hy22 hy11 hy12]
  rw [← daysFromCivil_lt_iff y2 m2 d2 y1 m1 d1 hv2 hv1]
  exact not_lt

/-- C10 counterexample.  For the well-formed zero-padded ISO string
`"0999-01-01"`, formatting the parsed date gives `"999-01-01"` — the
year is printed unpadded — so the round trip fails; and for the UTC
midnight date `0050-01-01`, `Date.UTC` remaps the two-digit year `50` to
`1950`, so parsing the formatted string does not return the date. -/
theorem C10_roundtrip_counterexample :
    (parseISODate "0999-01-01").map fmtDateUTC ≠ some "0999-01-01"
    ∧ (parseISODate "0999-01-01").map fmtDateUTC = some "999-01-01"
    ∧ parseISODate (fmtDateUTC (daysFromCivil 50 1 1)) ≠
        some (daysFromCivil 50 1 1) := by
  refine ⟨by decide, by decide, by decide⟩

/-- C10 as amended.  For valid dates with year at least 100 the round
trip holds in both directions: `fmtDateUTC` of the day number is the ISO
string with unpadded year (the zero-padded `YYYY-MM-DD` exactly for
4-digit years) and zero-padded month/day, and `parseISODate` of that
string returns the day number; and for 4-digit years the code-unit
(lexicographic) order of the stored date strings agrees with the
chronological order used by `filterSeriesByRange`. -/
theorem C10_roundtrip_amended (y1 m1 d1 y2 m2 d2 : Int)
    (hv1 : ValidDate y1 m1 d1) (hv2 : ValidDate y2 m2 d2) (hy1 : 100 ≤ y1) :
    fmtDateUTC (daysFromCivil y1 m1 d1) = isoString y1 m1 d1
    ∧ parseISODate (isoString y1 m1 d1) = some (daysFromCivil y1 m1 d1)
    ∧ (1000 ≤ y1 → y1 ≤ 9999 → 1000 ≤ y2 → y2 ≤ 9999 →
        (isoString y1 m1 d1 ≤ isoString y2 m2 d2 ↔
          daysFromCivil y1 m1 d1 ≤ daysFromCivil y2 m2 d2)) :=
  ⟨fmt_daysFromCivil y1 m1 d1 hv1,
   parse_isoString y1 m1 d1 hv1 hy1,
   fun h1 h2 h3 h4 => isoString_le_iff y1 m1 d1 y2 m2 d2 hv1 hv2 h1 h2 h3 h4⟩

/-- Witness for C10 (amended) at concrete dates. -/
theorem C10_roundtrip_amended_witness :
    fmtDateUTC (daysFromCivil 2024 3 2) = isoString 2024 3 2
    ∧ (isoString 2024 2 29 ≤ isoString 2024 3 2 ↔
        daysFromCivil 2024 2 29 ≤ daysFromCivil 2024 3 2) :=
  ⟨(C10_roundtrip_amended 2024 3 2 2024 3 2 (by decide) (by decide) (by omega)).1,
   (C10_roundtrip_amended 2024 2 29 2024 3 2 (by decide) (by decide)
      (by omega)).2.2 (by omega) (by omega) (by omega) (by omega)⟩

end Metals
